import Mathlib

/-!
Verification of the composite-PDF invoice segmentation engine of
`src/util/reducirPDFsMesActual.py` (repository CONTA_LAVOZDEGALICIA).

The Python module is shallowly embedded here:

* page texts are `String`s (lists of characters);
* the regular-expression searches `RE_DFORM`, `RE_NFACT_HEAD` and
  `RE_PAG_X_DE_Y` are embedded as executable leftmost-match scanners whose
  backtracking behaviour was analysed pattern-by-pattern (for each of the
  three concrete patterns the greedy, deterministic scan below is
  extensionally equal to Python's backtracking search; the analysis is
  recorded in the comments next to each matcher);
* Python `dict`s (which preserve insertion order) are association lists;
* the filesystem of the exporter is a list of pre-existing paths, and
  `os.path.join` is modelled as joining with `"/"`;
* Python's Unicode character classes (`\s`, `\w`, `str.lower`, `str.upper`)
  are modelled over ASCII plus the Latin accented characters that occur in
  Spanish invoices (á é í ó ú ñ ü, their capitals, º ª); this is the only
  deliberate narrowing of the embedding.
-/

/-! ## Characters: whitespace, word characters, case tables -/

/-- Python `\s` / `str.split()` whitespace (ASCII part). -/
def esBlanco (c : Char) : Bool :=
  c = ' ' ∨ c = '\t' ∨ c = '\n' ∨ c = '\r' ∨ c = '\x0b' ∨ c = '\x0c'

/-- Latin accented characters treated as letters (part of Python `\w`). -/
def acentuadas : List Char :=
  ['á', 'é', 'í', 'ó', 'ú', 'ñ', 'ü', 'Á', 'É', 'Í', 'Ó', 'Ú', 'Ñ', 'Ü', 'º', 'ª']

/-- Python `\w` (word character): alphanumeric or underscore, plus the
Latin accented letters of this embedding. -/
def esPalabra (c : Char) : Bool :=
  c.isAlphanum ∨ c = '_' ∨ c ∈ acentuadas

/-- Lookup in an association table of characters, identity when absent. -/
def buscaTabla : List (Char × Char) → Char → Char
  | [], c => c
  | (a, b) :: resto, c => if a = c then b else buscaTabla resto c

/-- Case table: uppercase letter to its lowercase form (`str.lower`). -/
def tablaBaja : List (Char × Char) :=
  [('A','a'),('B','b'),('C','c'),('D','d'),('E','e'),('F','f'),('G','g'),
   ('H','h'),('I','i'),('J','j'),('K','k'),('L','l'),('M','m'),('N','n'),
   ('O','o'),('P','p'),('Q','q'),('R','r'),('S','s'),('T','t'),('U','u'),
   ('V','v'),('W','w'),('X','x'),('Y','y'),('Z','z'),
   ('Á','á'),('É','é'),('Í','í'),('Ó','ó'),('Ú','ú'),('Ñ','ñ'),('Ü','ü')]

/-- Case table: lowercase letter to its uppercase form (`str.upper`). -/
def tablaSube : List (Char × Char) :=
  [('a','A'),('b','B'),('c','C'),('d','D'),('e','E'),('f','F'),('g','G'),
   ('h','H'),('i','I'),('j','J'),('k','K'),('l','L'),('m','M'),('n','N'),
   ('o','O'),('p','P'),('q','Q'),('r','R'),('s','S'),('t','T'),('u','U'),
   ('v','V'),('w','W'),('x','X'),('y','Y'),('z','Z'),
   ('á','Á'),('é','É'),('í','Í'),('ó','Ó'),('ú','Ú'),('ñ','Ñ'),('ü','Ü')]

/-- One character of `str.lower()`. -/
def bajaChar (c : Char) : Char := buscaTabla tablaBaja c

/-- One character of `str.upper()`. -/
def subeChar (c : Char) : Char := buscaTabla tablaSube c

/-- `str.lower()` of a whole string, used for the case-insensitive
bookkeeping of already-used output paths. -/
def minusculas (s : String) : String := String.mk (s.data.map bajaChar)

/-- The 26 ASCII lowercase letters; "fully uppercased" in the claims is
formalised as containing none of these. -/
def letrasMinusculas : List Char :=
  ['a','b','c','d','e','f','g','h','i','j','k','l','m',
   'n','o','p','q','r','s','t','u','v','w','x','y','z']

/-! ## Text utilities (`_limpio`, whitespace normalisation) -/

/-- Python `str.strip(chars)`: drop characters satisfying `p` from both
ends. -/
def recorta (p : Char → Bool) (cs : List Char) : List Char :=
  ((cs.dropWhile p).reverse.dropWhile p).reverse

/-- The strip-set of `_limpio`'s `.strip(" :#.-")`. -/
def signosSueltos (c : Char) : Bool :=
  c = ' ' ∨ c = ':' ∨ c = '#' ∨ c = '.' ∨ c = '-'

/-- `_limpio(token)` of the source: `token.strip().strip(" :#.-")`, then
`re.sub(r"\s+", "", token)`, then `token.upper()`. -/
def limpio (ts : List Char) : List Char :=
  let t1 := recorta esBlanco ts
  let t2 := recorta signosSueltos t1
  (t2.filter (fun c => ¬ esBlanco c)).map subeChar

/-- Helper of `" ".join(texto.split())`: the whitespace-separated words of
a character list (accumulator holds the current word reversed). -/
def palabrasAux (actual : List Char) : List Char → List (List Char)
  | [] => if actual.isEmpty then [] else [actual.reverse]
  | c :: resto =>
    if esBlanco c then
      if actual.isEmpty then palabrasAux [] resto
      else actual.reverse :: palabrasAux [] resto
    else palabrasAux (c :: actual) resto

/-- `" ".join(texto.split())`: collapse whitespace runs to single spaces and
strip the ends. -/
def normaliza (cs : List Char) : List Char :=
  List.intercalate [' '] (palabrasAux [] cs)

/-! ## `RE_DFORM`: `\bD\d{2}` + optional space/dot/slash/hyphen + `\d{5,6}\b` (IGNORECASE)

Backtracking analysis used to justify the deterministic scan:
the optional separator class contains no digit, so if a separator is
present the digits must follow it; and `\d{5,6}` followed by `\b` succeeds
exactly when the maximal digit run has length 5 or 6 and the character
after the run is not a word character (shorter retries always place a
digit, which is a word character, after the group). -/

/-- A character of the optional separator class (whitespace, dot, slash
or hyphen). -/
def esSepDForm (c : Char) : Bool :=
  esBlanco c ∨ c = '.' ∨ c = '/' ∨ c = '-'

/-- End-of-match word boundary `\b` (last matched char is a digit, hence a
word char): the rest must be empty or start with a non-word character. -/
def limiteDer (cs : List Char) : Bool :=
  match cs with
  | [] => true
  | c :: _ => ¬ esPalabra c

/-- The `\d{5,6}\b` tail of `RE_DFORM` at the head of `cs`. -/
def colaDForm (cs : List Char) : Option (List Char) :=
  let r := cs.takeWhile Char.isDigit
  if (r.length = 5 ∨ r.length = 6) ∧ limiteDer (cs.drop r.length) then some r
  else none

/-- `RE_DFORM` anchored at the head of `cs` (without the left `\b`, which
the scanner checks): returns the matched characters (`m.group(0)`). -/
def dformAt (cs : List Char) : Option (List Char) :=
  match cs with
  | d :: c1 :: c2 :: resto =>
    if bajaChar d = 'd' ∧ c1.isDigit ∧ c2.isDigit then
      match resto with
      | [] => none
      | s :: resto2 =>
        if esSepDForm s then
          (colaDForm resto2).map (fun cola => d :: c1 :: c2 :: s :: cola)
        else
          (colaDForm resto).map (fun cola => d :: c1 :: c2 :: cola)
    else none
  | _ => none

/-- Left word boundary `\b` before the `D` (a word character): the
preceding character, when there is one, must not be a word character. -/
def limiteIzq (prev : Option Char) : Bool :=
  match prev with
  | none => true
  | some d => ¬ esPalabra d

/-- `RE_DFORM.search`: leftmost match, scanning with the previous
character to decide the left word boundary. -/
def dformBusca (prev : Option Char) : List Char → Option (List Char)
  | [] => none
  | c :: resto =>
    match (if limiteIzq prev then dformAt (c :: resto) else none) with
    | some m => some m
    | none => dformBusca (some c) resto

/-! ## `RE_NFACT_HEAD`:
`(?:N[\.\°º]?\s*o?\.?|Nº|No\.?|N\.)\s*(?:de\s*)?factura\b` (IGNORECASE)

The first alternative `N[\.\°º]?\s*o?\.?` subsumes `Nº`, `No\.?` and
`N\.`, and each optional element consumes characters that no later element
of the pattern can consume (the class chars `.`/`°`/`º`, `o`, `.` and
whitespace never start `\s*(?:de\s*)?factura`), so the greedy scan below
is extensionally equal to Python's backtracking match.  Likewise if the
literal `de` is present but `factura` then fails, the no-`de` branch fails
too (`d` is not `f`). -/

/-- Consume a case-insensitive pattern given as a list of allowed
(lowercase) characters per position; return the rest on success. -/
def trasPatron (patron : List (List Char)) (cs : List Char) : Option (List Char) :=
  match patron, cs with
  | [], resto => some resto
  | _ :: _, [] => none
  | posibles :: ps, c :: resto =>
    if bajaChar c ∈ posibles then trasPatron ps resto else none

/-- Consume one optional character satisfying `p`. -/
def saltaOpc (p : Char → Bool) (cs : List Char) : List Char :=
  match cs with
  | [] => []
  | c :: resto => if p c then resto else c :: resto

/-- `RE_NFACT_HEAD` anchored at the head of `cs`: returns the suffix after
the match (Python's `t[m.end():]`). -/
def nfactAt (cs : List Char) : Option (List Char) :=
  match cs with
  | [] => none
  | c :: resto =>
    if bajaChar c = 'n' then
      let r1 := saltaOpc (fun d => d = '.' ∨ d = '°' ∨ d = 'º') resto
      let r2 := r1.dropWhile esBlanco
      let r3 := saltaOpc (fun d => bajaChar d = 'o') r2
      let r4 := saltaOpc (fun d => d = '.') r3
      let r5 := r4.dropWhile esBlanco
      let r6 := match trasPatron [['d'], ['e']] r5 with
                | some q => q.dropWhile esBlanco
                | none => r5
      match trasPatron [['f'], ['a'], ['c'], ['t'], ['u'], ['r'], ['a']] r6 with
      | some r7 => if limiteDer r7 then some r7 else none
      | none => none
    else none

/-- `RE_NFACT_HEAD.search`: leftmost match, returning the suffix after the
match end. -/
def nfactBusca : List Char → Option (List Char)
  | [] => none
  | c :: resto =>
    match nfactAt (c :: resto) with
    | some r => some r
    | none => nfactBusca resto

/-! ## `detectar_id_factura` -/

/-- The `STOPWORDS` set of the source. -/
def STOPWORDS : List String :=
  ["VENCIMIENTOS", "VENCIMIENTO", "FACTURAS", "FACTURA", "TOTAL", "BASE",
   "CLIENTE", "IMPORTE", "IVA", "ALBARAN", "ALBARÁN", "CODIGO", "CÓDIGO",
   "PAGINA", "HOJA", "PAGE", "DATOS"]

/-- A separator of `re.split(r"[\s,:;|]+", ...)`. -/
def esSeparaTrozo (c : Char) : Bool :=
  esBlanco c ∨ c = ',' ∨ c = ':' ∨ c = ';' ∨ c = '|'

/-- A character kept by `re.sub(r"[^\w/.\-]", "", ...)`. -/
def esFiltroToken (c : Char) : Bool :=
  esPalabra c ∨ c = '/' ∨ c = '.' ∨ c = '-'

/-- `any(ch.isdigit() for ch in token)`. -/
def tieneDigito (ts : List Char) : Bool := ts.any Char.isDigit

/-- `detectar_id_factura(texto)` of the source: tier 1 is `RE_DFORM` on the
whitespace-normalised text; tier 2 looks at the 50 characters after a
`Nº factura` header, first for `RE_DFORM`, then for the first
whitespace/punctuation-separated token (of which only the first element of
`re.split` is used) filtered to word characters, accepted when it has a
digit and is not a stopword. -/
def detectar_id_factura (texto : String) : Option String :=
  let t := normaliza texto.data
  match dformBusca none t with
  | some m => some (String.mk (limpio m))
  | none =>
    match nfactBusca t with
    | none => none
    | some resto =>
      let ventana := resto.take 50
      match dformBusca none ventana with
      | some m2 => some (String.mk (limpio m2))
      | none =>
        let trozo := (recorta esBlanco ventana).takeWhile (fun c => ¬ esSeparaTrozo c)
        let token := limpio (trozo.filter esFiltroToken)
        if token ≠ [] ∧ tieneDigito token ∧ String.mk token ∉ STOPWORDS then
          some (String.mk token)
        else none

/-! ## `RE_PAG_X_DE_Y`:
`(?:p[aá]gina|hoja|page)\s*(\d{1,3})\s*(?:/|de|of)\s*(\d{1,3})` (IGNORECASE)

Backtracking analysis: the keyword alternatives are mutually exclusive at a
given position; `\d{1,3}` followed by `\s*(?:/|de|of)` succeeds exactly
when the maximal digit run has length 1..3 (a shorter retry places a digit
before the separator, which cannot match); the final `\d{1,3}` has nothing
after it, so it greedily takes the first `min(3, run)` digits. -/

/-- Numeric value of a digit character ('0'..'9'). -/
def valorDigito (c : Char) : Nat := c.toNat - 48

/-- Numeric value of a digit string, most significant first. -/
def valorDe (ds : List Char) : Nat :=
  ds.foldl (fun a c => 10 * a + valorDigito c) 0

/-- The page keyword `p[aá]gina|hoja|page`, case-insensitively, at the
head of `cs`; returns the rest. -/
def palabraPag (cs : List Char) : Option (List Char) :=
  match trasPatron [['p'], ['a', 'á'], ['g'], ['i'], ['n'], ['a']] cs with
  | some r => some r
  | none =>
    match trasPatron [['h'], ['o'], ['j'], ['a']] cs with
    | some r => some r
    | none => trasPatron [['p'], ['a'], ['g'], ['e']] cs

/-- The separator `/|de|of`, case-insensitively, at the head of `cs`. -/
def separadorPag (cs : List Char) : Option (List Char) :=
  match cs with
  | [] => none
  | c :: resto =>
    if c = '/' then some resto
    else
      match trasPatron [['d'], ['e']] (c :: resto) with
      | some r => some r
      | none => trasPatron [['o'], ['f']] (c :: resto)

/-- `RE_PAG_X_DE_Y` anchored at the head of `cs`: the parsed pair
`(X, Y)`. -/
def pagAt (cs : List Char) : Option (Nat × Nat) :=
  match palabraPag cs with
  | none => none
  | some r1 =>
    let r2 := r1.dropWhile esBlanco
    let xd := r2.takeWhile Char.isDigit
    if xd.length = 0 ∨ 3 < xd.length then none
    else
      let r3 := (r2.drop xd.length).dropWhile esBlanco
      match separadorPag r3 with
      | none => none
      | some r4 =>
        let r5 := r4.dropWhile esBlanco
        let yd := r5.takeWhile Char.isDigit
        if yd.isEmpty then none
        else some (valorDe xd, valorDe (yd.take 3))

/-- `RE_PAG_X_DE_Y.search`: leftmost match. -/
def pagBusca : List Char → Option (Nat × Nat)
  | [] => none
  | c :: resto =>
    match pagAt (c :: resto) with
    | some r => some r
    | none => pagBusca resto

/-- `es_ultima_por_marca(texto)` of the source: true iff the first
`Página/Hoja/Page X de Y` match has `y > 0` and `x == y` (the `int()`
calls cannot fail on 1–3 digit groups, so the `except` branch is dead). -/
def es_ultima_por_marca (texto : String) : Bool :=
  match pagBusca texto.data with
  | none => false
  | some (x, y) => decide (0 < y ∧ x = y)

/-- Claim-side predicate (C4's reading): the text *contains*, at any
position, a page marker whose parsed `(x, y)` satisfy `y > 0 ∧ x = y`. -/
def existeMarcaCierre : List Char → Bool
  | [] => false
  | c :: resto =>
    (match pagAt (c :: resto) with
     | some (x, y) => decide (0 < y ∧ x = y)
     | none => false) || existeMarcaCierre resto

/-! ## `nombre_seguro` -/

/-- A character kept by `re.sub(r"[^A-Za-z0-9\-_\.]+", "_", s)`:
ASCII alphanumeric, hyphen, underscore or dot. -/
def esSegura (c : Char) : Bool :=
  c.isAlphanum ∨ c = '-' ∨ c = '_' ∨ c = '.'

/-- `re.sub(r"[^A-Za-z0-9\-_\.]+", "_", s)`: collapse each maximal run of
unsafe characters to a single underscore (`enRacha` records being inside
such a run). -/
def colapsaAux (enRacha : Bool) : List Char → List Char
  | [] => []
  | c :: resto =>
    if esSegura c then c :: colapsaAux false resto
    else if enRacha then colapsaAux true resto
    else '_' :: colapsaAux true resto

/-- `nombre_seguro(s)` of the source with its default `maxlen = 120`:
collapse unsafe runs to `_`, strip underscores from both ends, fall back
to `"factura"` when empty, truncate to 120 characters. -/
def nombre_seguro (s : String) : String :=
  let t := recorta (fun c => c = '_') (colapsaAux false s.data)
  String.mk ((if t.isEmpty then "factura".data else t).take 120)

/-- Claim-side variant (C7's wording): collapse every run of
*non-alphanumeric* characters to `_`, truncate, placeholder when empty. -/
def colapsaReclamoAux (enRacha : Bool) : List Char → List Char
  | [] => []
  | c :: resto =>
    if c.isAlphanum then c :: colapsaReclamoAux false resto
    else if enRacha then colapsaReclamoAux true resto
    else '_' :: colapsaReclamoAux true resto

/-- The transliteration exactly as claim C7 words it. -/
def nombreSeguroReclamo (s : String) : String :=
  let t := colapsaReclamoAux false s.data
  String.mk ((if t.isEmpty then "factura".data else t).take 120)

/-! ## Association lists: Python dicts with insertion order -/

/-- `d.get(q)` / `d[q]`. -/
def alGet : List (String × Nat) → String → Option Nat
  | [], _ => none
  | (k, v) :: resto, q => if k = q then some v else alGet resto q

/-- `d.get(q, por_defecto)`. -/
def alGetD (l : List (String × Nat)) (q : String) (porDefecto : Nat) : Nat :=
  (alGet l q).getD porDefecto

/-- `q in d`. -/
def alTiene (l : List (String × Nat)) (q : String) : Bool :=
  (alGet l q).isSome

/-- `d[q] = v`: update in place, or append a new key at the end (Python
dicts preserve insertion order). -/
def alSet : List (String × Nat) → String → Nat → List (String × Nat)
  | [], q, v => [(q, v)]
  | (k, w) :: resto, q, v =>
    if k = q then (k, v) :: resto else (k, w) :: alSet resto q v

/-- The keys of an association list, in insertion order. -/
def claves (l : List (String × Nat)) : List String := l.map Prod.fst

/-! ## The segmentation state machine of `procesar_pdf_compuesto` -/

/-- One per-page signal: the detected identifier (or none) and whether the
page carries a closing `X de Y, X = Y` marker. -/
abbrev Senal := Option String × Bool

/-- The loop state of `procesar_pdf_compuesto`. -/
structure Estado where
  primera : List (String × Nat)
  ultima : List (String × Nat)
  orden : List (String × Nat)
  secuencia : Nat
  current : Option String

/-- The state before the page loop. -/
def inicial : Estado :=
  { primera := [], ultima := [], orden := [], secuencia := 0, current := none }

/-- Python truthiness of `current_id` / `found` (None and the empty string
are falsy). -/
def esVerdadero : Option String → Bool
  | none => false
  | some s => s ≠ ""

/-- The body of the page loop of `procesar_pdf_compuesto` for page `i`
with signal `sig`, translated line by line:
first the closing-marker rule
`if current_id and es_ultima_por_marca(tx): ultima_pagina[current_id] = i`
(factored out as `pasoCierre`). -/
def pasoCierre (i : Nat) (st : Estado) (sig : Senal) : Estado :=
  match st.current with
  | some cid =>
    if cid ≠ "" ∧ sig.2 then { st with ultima := alSet st.ultima cid i } else st
  | none => st

/-- The close-previous sub-step of an identifier change:
`if prev not in ultima_pagina: ultima_pagina[prev] = max(i - 1,
primera_pagina.get(prev, i - 1))`. -/
def cierraPrev (i : Nat) (st1 : Estado) (cid : String) : Estado :=
  if alTiene st1.ultima cid then st1
  else { st1 with
         ultima := alSet st1.ultima cid (max (i - 1) (alGetD st1.primera cid (i - 1))) }

/-- The make-current sub-step of an identifier change: `current_id =
found`, and when `found` is not yet in `orden_aparicion`, assign it the
next sequence number and its first page. -/
def tomaNuevo (i : Nat) (st2 : Estado) (found : String) : Estado :=
  if alTiene st2.orden found then { st2 with current := some found }
  else
    { st2 with
      current := some found
      secuencia := st2.secuencia + 1
      orden := alSet st2.orden found (st2.secuencia + 1)
      primera := alSet st2.primera found i }

/-- The rest of the loop body: the `if found:` block with its three
branches. -/
def paso (i : Nat) (st : Estado) (sig : Senal) : Estado :=
  let st1 := pasoCierre i st sig
  match sig.1 with
  | none => st1
  | some found =>
    if found = "" then st1
    else
      match st1.current with
      | none =>
        -- 1ª factura detectada
        { st1 with
          current := some found
          secuencia := st1.secuencia + 1
          orden := alSet st1.orden found (st1.secuencia + 1)
          primera := alSet st1.primera found i }
      | some cid =>
        if found = cid then st1
        else
          -- cambio de factura: cerrar la anterior si no tenía última,
          -- luego pasar a la nueva
          tomaNuevo i (cierraPrev i st1 cid) found

/-- The page loop over the signals, `i` being the index of the first
signal of the list. -/
def bucle (i : Nat) (st : Estado) : List Senal → Estado
  | [] => st
  | sig :: resto => bucle (i + 1) (paso i st sig) resto

/-- End-of-document finalisation: if the current invoice has no recorded
last page, it ends at page `n - 1`. -/
def finaliza (n : Nat) (st : Estado) : Estado :=
  if esVerdadero st.current ∧ ¬ alTiene st.ultima (st.current.getD "") then
    { st with ultima := alSet st.ultima (st.current.getD "") (n - 1) }
  else st

/-- The state after the whole scan of a signal list. -/
def estadoFinal (sigs : List Senal) : Estado :=
  finaliza sigs.length (bucle 0 inicial sigs)

/-! ## Export ordering and the resolved segments -/

/-- Stable insertion into a list sorted by the key `f` (new element goes
after equal keys). -/
def insertaPorClave (f : String × Nat → Nat) (x : String × Nat) :
    List (String × Nat) → List (String × Nat)
  | [] => [x]
  | y :: resto =>
    if f y ≤ f x then y :: insertaPorClave f x resto else x :: y :: resto

/-- `sorted(items, key=f)` (the keys are distinct in every use, so
stability is irrelevant). -/
def ordenaPorClave (f : String × Nat → Nat) : List (String × Nat) → List (String × Nat)
  | [] => []
  | x :: resto => insertaPorClave f x (ordenaPorClave f resto)

/-- `pares = sorted(ultima_pagina.items(), key=orden_aparicion.get(id, 10**9))`. -/
def paresDe (st : Estado) : List (String × Nat) :=
  ordenaPorClave (fun kv => alGetD st.orden kv.1 (10 ^ 9)) st.ultima

/-- The resolved segments `(identifier, firstPage, lastPage, discoveryOrder)`
in export order, read off the final maps. -/
def segmentosSenales (sigs : List Senal) : List (String × Nat × Nat × Nat) :=
  let st := estadoFinal sigs
  (paresDe st).map (fun kv => (kv.1, alGetD st.primera kv.1 0, kv.2, alGetD st.orden kv.1 0))

/-! ## The per-page signals computed from page texts -/

/-- The two signals the loop body extracts from one page text. -/
def senalDe (texto : String) : Senal :=
  (detectar_id_factura texto, es_ultima_por_marca texto)

/-- The page loop as written in the source: per page, extract the text's
signals and take one `paso`. -/
def bucleTextos (i : Nat) (st : Estado) : List String → Estado
  | [] => st
  | tx :: resto => bucleTextos (i + 1) (paso i st (senalDe tx)) resto

/-- The final state of the scan of a document given as page texts. -/
def estadoFinalTextos (txs : List String) : Estado :=
  finaliza txs.length (bucleTextos 0 inicial txs)

/-- The resolved segments of a document given as page texts. -/
def segmentosTextos (txs : List String) : List (String × Nat × Nat × Nat) :=
  let st := estadoFinalTextos txs
  (paresDe st).map (fun kv => (kv.1, alGetD st.primera kv.1 0, kv.2, alGetD st.orden kv.1 0))

/-! ## The exporter: deterministic names, collision avoidance -/

/-- Decimal digit character for `k < 10`. -/
def digitoChar (k : Nat) : Char := "0123456789".data.getD k '0'

/-- Decimal rendering of a natural number (Python `str(k)` inside an
f-string), most significant digit first. -/
def digitos (n : Nat) : List Char :=
  if _h : n < 10 then [digitoChar n]
  else digitos (n / 10) ++ [digitoChar (n % 10)]
decreasing_by exact Nat.div_lt_self (by omega) (by omega)

/-- `f"{orden:03d}"`: decimal rendering zero-padded to width 3. -/
def pad3 (n : Nat) : List Char :=
  List.replicate (3 - (digitos n).length) '0' ++ digitos n

/-- The candidate output path for attempt `k` of one segment:
`os.path.join(dst_dir, out_name)` (modelled with `/`) where the name is
`f"{orden:03d}_{fid_safe}__{base_name}_ULTIMA.pdf"` for `k = 0` and
`f"{orden:03d}_{fid_safe}__{base_name}_ULTIMA_{k}.pdf"` for `k ≥ 1`. -/
def rutaCandidata (dst base fidSafe : String) (orden k : Nat) : String :=
  dst ++ "/" ++ String.mk (pad3 orden) ++ "_" ++ fidSafe ++ "__" ++ base ++ "_ULTIMA" ++
    (if k = 0 then ".pdf" else "_" ++ String.mk (digitos k) ++ ".pdf")

/-- The collision test of the `while` loop:
`out_path.lower() in ya_usados or os.path.exists(out_path)`, the
filesystem being modelled by the list `existentes`. -/
def rutaBloqueada (usados existentes : List String) (ruta : String) : Bool :=
  minusculas ruta ∈ usados ∨ ruta ∈ existentes

/-- The `while` loop choosing the first non-blocked candidate.  A free
candidate always exists among attempts `0 .. |usados| + |existentes|`
(theorem `existeCandidataLibre` below), so the bounded search is the
loop's exact semantics; the fallback is dead code. -/
def eligeRuta (usados existentes : List String) (dst base fidSafe : String)
    (orden : Nat) : String :=
  match (List.range (usados.length + existentes.length + 1)).find?
      (fun k => ¬ rutaBloqueada usados existentes (rutaCandidata dst base fidSafe orden k)) with
  | some k => rutaCandidata dst base fidSafe orden k
  | none => rutaCandidata dst base fidSafe orden 0

/-- The export loop over `pares`: for each segment choose a free path,
record its lowercased form in `ya_usados`, and write the file.  Returns
the list of written paths (one per segment, in order). -/
def exporta (dst base : String) (existentes : List String)
    (ordenes : List (String × Nat)) :
    List (String × Nat) → List String → List String
  | [], _ => []
  | (fid, _idxUltima) :: resto, usados =>
    let r := eligeRuta usados existentes dst base (nombre_seguro fid) (alGetD ordenes fid 0)
    r :: exporta dst base existentes ordenes resto (minusculas r :: usados)

/-- The paths written by `procesar_pdf_compuesto` for a signal list; the
returned export count of the Python function is the length of this
list (`exportadas` is incremented once per pair). -/
def rutasExportadas (dst base : String) (existentes : List String)
    (sigs : List Senal) : List String :=
  let st := estadoFinal sigs
  exporta dst base existentes st.orden (paresDe st) []

/-! ## Claim-side characterisations -/

/-- First appearances: the identifiers of the signal list in order of
first appearance (skipping the falsy empty string exactly as `if found:`
does), each with the page index of that first appearance. -/
def aparicionesPrimeras (i : Nat) (vistos : List String) :
    List Senal → List (String × Nat)
  | [] => []
  | (f?, _) :: resto =>
    match f? with
    | some f =>
      if f ≠ "" ∧ f ∉ vistos then
        (f, i) :: aparicionesPrimeras (i + 1) (f :: vistos) resto
      else aparicionesPrimeras (i + 1) vistos resto
    | none => aparicionesPrimeras (i + 1) vistos resto

/-- The range invariant of the scan after processing pages `0 .. i-1`:
key sets are duplicate-free, every closed invoice has a first page at or
before its last page, recorded pages are past pages, and the active
identifier (always truthy and known to `orden`) is the only one that may
still lack a last page. -/
def InvRango (i : Nat) (st : Estado) : Prop :=
  (claves st.orden).Nodup ∧
  (claves st.ultima).Nodup ∧
  (∀ x ∈ claves st.ultima, x ∈ claves st.orden) ∧
  (∀ x ∈ claves st.orden, x ∈ claves st.ultima ∨ st.current = some x) ∧
  (∀ c, st.current = some c → c ∈ claves st.orden ∧ c ≠ "") ∧
  (∀ q p, alGet st.primera q = some p → p < i) ∧
  (∀ q, q ∈ claves st.orden → ∃ p, alGet st.primera q = some p) ∧
  (∀ q l, alGet st.ultima q = some l →
      (∃ p, alGet st.primera q = some p ∧ p ≤ l) ∧ l < i) ∧
  (st.current = none → st.primera = [] ∧ st.ultima = [] ∧ st.orden = [])

/-! ## General helper lemmas -/

/-- Leftmost-match characterisation of `pagBusca`: it returns `p` exactly
when some position matches with result `p` and every earlier position
fails. -/
theorem pagBusca_caracteriza (cs : List Char) (p : Nat × Nat) :
    pagBusca cs = some p ↔
      ∃ i, pagAt (cs.drop i) = some p ∧ ∀ j, j < i → pagAt (cs.drop j) = none := by
  induction cs with
  | nil =>
    simp only [pagBusca, List.drop_nil]
    constructor
    · intro h; cases h
    · rintro ⟨i, hi, -⟩
      rw [show pagAt [] = none from rfl] at hi
      cases hi
  | cons c resto ih =>
    cases h : pagAt (c :: resto) with
    | some r =>
      simp only [pagBusca, h]
      constructor
      · intro he
        exact ⟨0, by simpa [h] using he, by omega⟩
      · rintro ⟨i, hi, hprev⟩
        cases i with
        | zero => simp only [List.drop_zero] at hi; rw [h] at hi; exact hi
        | succ k =>
          have := hprev 0 (by omega)
          rw [List.drop_zero, h] at this
          cases this
    | none =>
      simp only [pagBusca, h]
      rw [ih]
      constructor
      · rintro ⟨i, hi, hprev⟩
        refine ⟨i + 1, by simpa using hi, ?_⟩
        intro j hj
        cases j with
        | zero => simpa using h
        | succ k => simpa using hprev k (by omega)
      · rintro ⟨i, hi, hprev⟩
        cases i with
        | zero => simp only [List.drop_zero] at hi; rw [h] at hi; cases hi
        | succ k =>
          refine ⟨k, by simpa using hi, ?_⟩
          intro j hj
          have := hprev (j + 1) (by omega)
          simpa using this

/-- The page loop on texts is the page loop on the per-page signals. -/
theorem bucleTextos_factoriza (txs : List String) :
    ∀ i st, bucleTextos i st txs = bucle i st (txs.map senalDe) := by
  induction txs with
  | nil => intro i st; rfl
  | cons tx resto ih => intro i st; simp only [bucleTextos, List.map_cons, bucle, ih]

/-! ## Claim C1 -/

/-- C1, counterexample: the detector does not strip a dot separator; on
the page text "D24.14318" it returns "D24.14318", not the claimed
"D2414318". -/
theorem C1_contraejemplo :
    detectar_id_factura "D24.14318" = some "D24.14318" ∧
    detectar_id_factura "D24.14318" ≠ some "D2414318" := by decide

/-- C1 (amended): whenever the primary pattern matches the normalised page
text, the detector returns the match cleaned by `_limpio`, which
uppercases and removes whitespace but keeps dot, slash and hyphen
separators; hence "D24 14318" yields "D2414318" while "D24.14318",
"D24-14318" and "D24/14318" keep their separators. -/
theorem C1_detecta_primario :
    (∀ (t : String) (m : List Char),
        dformBusca none (normaliza t.data) = some m →
        detectar_id_factura t = some (String.mk (limpio m)))
    ∧ detectar_id_factura "D24 14318" = some "D2414318"
    ∧ detectar_id_factura "D24.14318" = some "D24.14318"
    ∧ detectar_id_factura "D24-14318" = some "D24-14318"
    ∧ detectar_id_factura "D24/14318" = some "D24/14318" := by
  refine ⟨?_, by decide, by decide, by decide, by decide⟩
  intro t m h
  unfold detectar_id_factura
  simp only [h]

/-- C1, witness for the amended theorem at a concrete input. -/
theorem C1_testigo :
    detectar_id_factura "D24 14318" =
      some (String.mk (limpio ['D', '2', '4', ' ', '1', '4', '3', '1', '8'])) :=
  C1_detecta_primario.1 "D24 14318" ['D', '2', '4', ' ', '1', '4', '3', '1', '8'] (by decide)

/-! ## Claim C2 -/

/-- C2, counterexample: on signals `[A, A, none, B, B, B]` the machine
closes A at page 2 (`max(3 - 1, 0)`), not at page 1: the claimed segment
`(A, 0, 1, 1)` is not produced. -/
theorem C2_contraejemplo :
    ("A", 0, 1, 1) ∉ segmentosSenales
      [(some "A", false), (some "A", false), (none, false),
       (some "B", false), (some "B", false), (some "B", false)] := by decide

/-- C2 (amended): the run on `[A, A, none, B, B, B]` produces exactly the
segments `(A, first 0, last 2, order 1)` and `(B, first 3, last 5,
order 2)` — the identifier change at page 3 closes A at page `3 - 1 = 2`. -/
theorem C2_segmentos :
    segmentosSenales
      [(some "A", false), (some "A", false), (none, false),
       (some "B", false), (some "B", false), (some "B", false)]
      = [("A", 0, 2, 1), ("B", 3, 5, 2)] := by decide

/-! ## Claim C4 -/

/-- C4, counterexample: the detector inspects only the first marker match.
"Página 2 de 5 Página 5 de 5" contains a closing marker (`5 de 5`) but
the function returns false because the leftmost match is `2 de 5`. -/
theorem C4_contraejemplo :
    es_ultima_por_marca "Página 2 de 5 Página 5 de 5" = false ∧
    existeMarcaCierre ("Página 2 de 5 Página 5 de 5").data = true := by decide

/-- C4 (amended): the detector returns true iff the *leftmost* page-marker
match of the text parses to `(x, y)` with `y > 0` and `x = y`; markers
after a failing first match are ignored.  It never raises (it is a total
function), returns false for "Página 2 de 5" and true for
"Página 5 de 5". -/
theorem C4_marca_cierre :
    (∀ t : String,
      es_ultima_por_marca t = true ↔
        ∃ i x y, pagAt (t.data.drop i) = some (x, y) ∧
          (∀ j, j < i → pagAt (t.data.drop j) = none) ∧ 0 < y ∧ x = y)
    ∧ es_ultima_por_marca "Página 2 de 5" = false
    ∧ es_ultima_por_marca "Página 5 de 5" = true := by
  refine ⟨?_, by decide, by decide⟩
  intro t
  unfold es_ultima_por_marca
  constructor
  · intro h
    cases hb : pagBusca t.data with
    | none => rw [hb] at h; cases h
    | some p =>
      rw [hb] at h
      obtain ⟨x, y⟩ := p
      have hc : 0 < y ∧ x = y := by simpa using h
      obtain ⟨i, hi, hprev⟩ := (pagBusca_caracteriza t.data (x, y)).mp hb
      exact ⟨i, x, y, hi, hprev, hc⟩
  · rintro ⟨i, x, y, hi, hprev, hy, hxy⟩
    have hb : pagBusca t.data = some (x, y) :=
      (pagBusca_caracteriza t.data (x, y)).mpr ⟨i, hi, hprev⟩
    rw [hb]
    simp [hy, hxy]

/-! ## Claim C5 -/

/-- C5: a closing marker on a page with no active identifier has no
effect; the run on `[A closing, none, B, B closing]` produces exactly
`(A, 0, 1, 1)` and `(B, 2, 3, 2)`. -/
theorem C5_segmentos :
    segmentosSenales
      [(some "A", true), (none, false), (some "B", false), (some "B", true)]
      = [("A", 0, 1, 1), ("B", 2, 3, 2)] := by decide

/-! ## Claim C8 -/

/-- C8: the resolved segments are a pure function of the per-page signals:
two documents with identical per-page signals (even with different page
texts) yield identical segment sets. -/
theorem C8_determinista (txs1 txs2 : List String)
    (h : txs1.map senalDe = txs2.map senalDe) :
    segmentosTextos txs1 = segmentosTextos txs2 := by
  have hl : txs1.length = txs2.length := by
    have := congrArg List.length h
    simpa using this
  unfold segmentosTextos estadoFinalTextos
  rw [bucleTextos_factoriza, bucleTextos_factoriza, h, hl]

/-- C8, witness: two different one-page documents with equal signals have
equal segments. -/
theorem C8_testigo :
    (["hola"].map senalDe = ["mundo"].map senalDe) ∧
    segmentosTextos ["hola"] = segmentosTextos ["mundo"] :=
  ⟨by decide, C8_determinista ["hola"] ["mundo"] (by decide)⟩

/-! ## Claim C7 -/

/-- Every character produced by the run-collapsing substitution is in the
kept class (the replacement `_` itself is in the class). -/
theorem colapsaAux_segura (cs : List Char) :
    ∀ b c, c ∈ colapsaAux b cs → esSegura c = true := by
  induction cs with
  | nil => intro b c hc; simp [colapsaAux] at hc
  | cons a resto ih =>
    intro b c hc
    unfold colapsaAux at hc
    by_cases ha : esSegura a
    · rw [if_pos ha] at hc
      rcases List.mem_cons.mp hc with rfl | h
      · exact ha
      · exact ih false c h
    · rw [if_neg ha] at hc
      cases b with
      | true => exact ih true c (by simpa using hc)
      | false =>
        rcases List.mem_cons.mp (by simpa using hc) with rfl | h
        · decide
        · exact ih true c h

/-- Stripping from both ends only removes elements. -/
theorem recorta_sub (p : Char → Bool) (cs : List Char) :
    ∀ c ∈ recorta p cs, c ∈ cs := by
  intro c hc
  unfold recorta at hc
  have h1 := List.mem_reverse.mp hc
  have h2 := (List.dropWhile_sublist (l := (cs.dropWhile p).reverse) p).mem h1
  have h3 := List.mem_reverse.mp h2
  exact (List.dropWhile_sublist (l := cs) p).mem h3

/-- C7, counterexample: the code keeps dots (its class is alphanumeric
plus hyphen, underscore, dot), so `nombre_seguro "A.B"` is "A.B", while
the claimed collapse of every non-alphanumeric run gives "A_B". -/
theorem C7_contraejemplo :
    nombre_seguro "A.B" = "A.B" ∧ nombreSeguroReclamo "A.B" = "A_B" ∧
    nombre_seguro "A.B" ≠ nombreSeguroReclamo "A.B" := by decide

/-- C7 (amended): the transliteration collapses every run of characters
outside `[A-Za-z0-9._-]` (not of all non-alphanumerics) to one `_`, also
strips `_` from the ends; the result is at most 120 characters, never
empty (placeholder "factura"), and contains only kept-class characters. -/
theorem C7_nombre_seguro (s : String) :
    (nombre_seguro s).data.length ≤ 120 ∧ nombre_seguro s ≠ "" ∧
    ∀ c ∈ (nombre_seguro s).data, esSegura c = true := by
  unfold nombre_seguro
  refine ⟨?_, ?_, ?_⟩
  · simp [List.length_take_le]
  · intro h
    have hd : (((if (recorta (fun c => c = '_') (colapsaAux false s.data)).isEmpty then
        "factura".data else recorta (fun c => c = '_') (colapsaAux false s.data)).take 120)) = [] := by
      have := congrArg String.data h
      simpa using this
    rcases List.take_eq_nil_iff.mp hd with h120 | hnil
    · cases h120
    · by_cases he : (recorta (fun c => c = '_') (colapsaAux false s.data)).isEmpty
      · rw [if_pos he] at hnil
        cases hnil
      · rw [if_neg he] at hnil
        exact he (by simp [hnil])
  · intro c hc
    simp only [String.data] at hc
    have hc2 := List.mem_of_mem_take hc
    by_cases he : (recorta (fun c => c = '_') (colapsaAux false s.data)).isEmpty
    · rw [if_pos he] at hc2
      have : c ∈ "factura".data := hc2
      fin_cases this <;> decide
    · rw [if_neg he] at hc2
      exact colapsaAux_segura s.data false c (recorta_sub _ _ c hc2)

/-! ## Claim C9: shape of every detected identifier -/

/-- `dropWhile` keeps every element that fails the predicate. -/
theorem dropWhile_conserva (p : Char → Bool) (cs : List Char) (c : Char)
    (h : c ∈ cs) (hp : p c = false) : c ∈ cs.dropWhile p := by
  induction cs with
  | nil => simp at h
  | cons a resto ih =>
    rcases List.mem_cons.mp h with rfl | hmem
    · simp [List.dropWhile_cons, hp]
    · simp only [List.dropWhile_cons]
      split
      · exact ih hmem
      · exact List.mem_cons_of_mem _ hmem

/-- Stripping from both ends keeps every element that fails the
predicate. -/
theorem recorta_conserva (p : Char → Bool) (cs : List Char) (c : Char)
    (h : c ∈ cs) (hp : p c = false) : c ∈ recorta p cs := by
  unfold recorta
  refine List.mem_reverse.mpr (dropWhile_conserva p _ c ?_ hp)
  exact List.mem_reverse.mpr (dropWhile_conserva p cs c h hp)

/-- A lookup of a key absent from the table is the identity. -/
theorem buscaTabla_ausente (tabla : List (Char × Char)) (c : Char)
    (h : c ∉ tabla.map Prod.fst) : buscaTabla tabla c = c := by
  induction tabla with
  | nil => rfl
  | cons par resto ih =>
    obtain ⟨a, b⟩ := par
    simp only [List.map_cons, List.mem_cons, not_or] at h
    have hne : ¬ (a = c) := fun hac => h.1 hac.symm
    rw [show buscaTabla ((a, b) :: resto) c
          = if a = c then b else buscaTabla resto c from rfl, if_neg hne]
    exact ih h.2

/-- A table lookup either misses (identity, key not in the table) or
returns one of the table's values. -/
theorem buscaTabla_casos (tabla : List (Char × Char)) (c : Char) :
    (c ∉ tabla.map Prod.fst ∧ buscaTabla tabla c = c) ∨
      buscaTabla tabla c ∈ tabla.map Prod.snd := by
  induction tabla with
  | nil => exact Or.inl ⟨by simp, rfl⟩
  | cons par resto ih =>
    obtain ⟨a, b⟩ := par
    by_cases hac : a = c
    · subst hac
      right
      simp [buscaTabla]
    · rcases ih with ⟨hna, hid⟩ | hval
      · left
        constructor
        · simp only [List.map_cons, List.mem_cons]
          rintro (rfl | hmem)
          · exact hac rfl
          · exact hna hmem
        · simpa [buscaTabla, hac] using hid
      · right
        simp only [buscaTabla, if_neg hac]
        exact List.mem_cons_of_mem _ hval

/-- Uppercasing a digit is the identity (digits are not table keys). -/
theorem subeChar_digito (c : Char) (h : c.isDigit = true) : subeChar c = c := by
  have hna : c ∉ tablaSube.map Prod.fst := by
    intro hmem
    have hfalso : ∀ v ∈ tablaSube.map Prod.fst, v.isDigit = false := by decide
    rw [hfalso c hmem] at h
    cases h
  unfold subeChar
  exact buscaTabla_ausente _ _ hna

/-- Uppercasing never produces whitespace. -/
theorem subeChar_no_blanco (c : Char) (h : esBlanco c = false) :
    esBlanco (subeChar c) = false := by
  unfold subeChar
  rcases buscaTabla_casos tablaSube c with ⟨-, hid⟩ | hval
  · rw [hid]; exact h
  · have hv : ∀ v ∈ tablaSube.map Prod.snd, esBlanco v = false := by decide
    exact hv _ hval

/-- Uppercasing never produces an ASCII lowercase letter. -/
theorem subeChar_no_minuscula (c : Char) : subeChar c ∉ letrasMinusculas := by
  unfold subeChar
  rcases buscaTabla_casos tablaSube c with ⟨hna, hid⟩ | hval
  · rw [hid]
    intro hmem
    apply hna
    have hsub : ∀ v ∈ letrasMinusculas, v ∈ tablaSube.map Prod.fst := by decide
    exact hsub c hmem
  · intro hmem
    have hv : ∀ v ∈ tablaSube.map Prod.snd, v ∉ letrasMinusculas := by decide
    exact hv _ hval hmem

/-- Digits are not whitespace. -/
theorem digito_no_blanco (c : Char) (h : c.isDigit = true) : esBlanco c = false := by
  cases he : esBlanco c
  · rfl
  · exfalso
    simp only [esBlanco, decide_eq_true_eq] at he
    rcases he with rfl | rfl | rfl | rfl | rfl | rfl <;> simp [Char.isDigit] at h

/-- Digits are not in the strip-set of `_limpio`. -/
theorem digito_no_suelto (c : Char) (h : c.isDigit = true) :
    signosSueltos c = false := by
  cases he : signosSueltos c
  · rfl
  · exfalso
    simp only [signosSueltos, decide_eq_true_eq] at he
    rcases he with rfl | rfl | rfl | rfl | rfl <;> simp [Char.isDigit] at h

/-- `_limpio` output never contains whitespace. -/
theorem limpio_sin_blanco (ts : List Char) :
    ∀ c ∈ limpio ts, esBlanco c = false := by
  intro c hc
  unfold limpio at hc
  obtain ⟨c0, hc0, rfl⟩ := List.mem_map.mp hc
  have hf := (List.mem_filter.mp hc0).2
  have hnb : esBlanco c0 = false := by
    cases he : esBlanco c0
    · rfl
    · rw [he] at hf; simp at hf
  exact subeChar_no_blanco c0 hnb

/-- `_limpio` output never contains an ASCII lowercase letter. -/
theorem limpio_sin_minuscula (ts : List Char) :
    ∀ c ∈ limpio ts, c ∉ letrasMinusculas := by
  intro c hc
  unfold limpio at hc
  obtain ⟨c0, -, rfl⟩ := List.mem_map.mp hc
  exact subeChar_no_minuscula c0

/-- `_limpio` keeps a digit: if the input has one, so does the output. -/
theorem limpio_digito (ts : List Char) (h : ∃ c ∈ ts, c.isDigit) :
    ∃ c ∈ limpio ts, c.isDigit := by
  obtain ⟨c, hc, hd⟩ := h
  refine ⟨subeChar c, ?_, ?_⟩
  · unfold limpio
    refine List.mem_map.mpr ⟨c, ?_, rfl⟩
    refine List.mem_filter.mpr ⟨?_, ?_⟩
    · exact recorta_conserva _ _ c
        (recorta_conserva _ _ c hc (digito_no_blanco c hd)) (digito_no_suelto c hd)
    · simp [digito_no_blanco c hd]
  · rw [subeChar_digito c hd]
    exact hd

/-- A successful anchored `RE_DFORM` match contains a digit (its second
character). -/
theorem dformAt_digito (cs m : List Char) (h : dformAt cs = some m) :
    ∃ c ∈ m, c.isDigit := by
  rcases cs with _ | ⟨d, cs⟩
  · cases h
  rcases cs with _ | ⟨c1, cs⟩
  · cases h
  rcases cs with _ | ⟨c2, resto⟩
  · cases h
  simp only [dformAt] at h
  split at h
  · rename_i hg
    rcases resto with _ | ⟨s, resto2⟩
    · cases h
    · simp only at h
      split at h
      · rcases Option.map_eq_some'.mp h with ⟨cola, -, rfl⟩
        exact ⟨c1, by simp, hg.2.1⟩
      · rcases Option.map_eq_some'.mp h with ⟨cola, -, rfl⟩
        exact ⟨c1, by simp, hg.2.1⟩
  · cases h

/-- A successful `RE_DFORM` search returns characters containing a
digit. -/
theorem dformBusca_digito (cs : List Char) :
    ∀ prev m, dformBusca prev cs = some m → ∃ c ∈ m, c.isDigit := by
  induction cs with
  | nil => intro prev m h; cases h
  | cons c resto ih =>
    intro prev m h
    unfold dformBusca at h
    split at h
    · rename_i hm
      cases hiz : limiteIzq prev
      · rw [if_neg (by simp [hiz])] at hm
        cases hm
      · rw [if_pos (by simp [hiz])] at hm
        have hsm := Option.some.inj h
        subst hsm
        exact dformAt_digito _ _ hm
    · exact ih _ m h

/-- Every value returned by `detectar_id_factura` is `_limpio` of some
character list, and contains a digit. -/
theorem detectar_forma (t s : String) (h : detectar_id_factura t = some s) :
    ∃ ts, s = String.mk (limpio ts) ∧ ∃ c ∈ limpio ts, c.isDigit := by
  simp only [detectar_id_factura] at h
  split at h
  · rename_i m h1
    simp only [Option.some.injEq] at h
    exact ⟨m, h.symm, limpio_digito m (dformBusca_digito _ none m h1)⟩
  · split at h
    · cases h
    · rename_i resto h2
      split at h
      · rename_i m2 h3
        simp only [Option.some.injEq] at h
        exact ⟨m2, h.symm, limpio_digito m2 (dformBusca_digito _ none m2 h3)⟩
      · split at h
        · rename_i hg
          obtain ⟨-, hdig, -⟩ := hg
          simp only [Option.some.injEq] at h
          refine ⟨_, h.symm, ?_⟩
          obtain ⟨c, hc, hd⟩ := List.any_eq_true.mp hdig
          exact ⟨c, hc, hd⟩
        · cases h

/-- C9: a detected identifier is never empty, contains no whitespace,
contains at least one decimal digit (hence is never purely alphabetic),
and contains no ASCII lowercase letter. -/
theorem C9_identificador (t s : String) (h : detectar_id_factura t = some s) :
    s.data ≠ [] ∧ (∀ c ∈ s.data, esBlanco c = false) ∧
    (∃ c ∈ s.data, c.isDigit) ∧ ∀ c ∈ s.data, c ∉ letrasMinusculas := by
  obtain ⟨ts, rfl, hdig⟩ := detectar_forma t s h
  have hdata : (String.mk (limpio ts)).data = limpio ts := rfl
  refine ⟨?_, ?_, ?_, ?_⟩
  · obtain ⟨c, hc, -⟩ := hdig
    intro hnil
    rw [hdata] at hnil
    rw [hnil] at hc
    cases hc
  · rw [hdata]; exact limpio_sin_blanco ts
  · rw [hdata]; exact hdig
  · rw [hdata]; exact limpio_sin_minuscula ts

/-- C9, witness at a concrete page text. -/
theorem C9_testigo :
    ("D2414318" : String).data ≠ [] ∧
    (∀ c ∈ ("D2414318" : String).data, esBlanco c = false) ∧
    (∃ c ∈ ("D2414318" : String).data, c.isDigit) ∧
    ∀ c ∈ ("D2414318" : String).data, c ∉ letrasMinusculas :=
  C9_identificador "D24 14318" "D2414318" (by decide)

/-! ## Association-list lemmas -/

theorem alGet_alSet_self (l : List (String × Nat)) (q : String) (v : Nat) :
    alGet (alSet l q v) q = some v := by
  induction l with
  | nil => simp [alSet, alGet]
  | cons par resto ih =>
    obtain ⟨k, w⟩ := par
    by_cases hk : k = q
    · subst hk
      simp [alSet, alGet]
    · simp [alSet, alGet, hk, ih]

theorem alGet_alSet_ne (l : List (String × Nat)) (q r : String) (v : Nat)
    (h : r ≠ q) : alGet (alSet l q v) r = alGet l r := by
  have hqr : ¬ q = r := fun he => h he.symm
  induction l with
  | nil => simp [alSet, alGet, hqr]
  | cons par resto ih =>
    obtain ⟨k, w⟩ := par
    by_cases hk : k = q
    · subst hk
      simp [alSet, alGet, hqr]
    · simp only [alSet, if_neg hk, alGet]
      split
      · rfl
      · exact ih

theorem alTiene_mem (l : List (String × Nat)) (q : String) :
    alTiene l q = true ↔ q ∈ claves l := by
  induction l with
  | nil => simp [alTiene, alGet, claves]
  | cons par resto ih =>
    obtain ⟨k, w⟩ := par
    by_cases hk : k = q
    · subst hk
      simp [alTiene, alGet, claves]
    · simp only [alTiene, alGet, if_neg hk, claves, List.map_cons, List.mem_cons]
      rw [show (alGet resto q).isSome = alTiene resto q from rfl, ih]
      constructor
      · exact Or.inr
      · rintro (rfl | hm)
        · exact absurd rfl hk
        · exact hm

theorem alSet_ausente (l : List (String × Nat)) (q : String) (v : Nat)
    (h : q ∉ claves l) : alSet l q v = l ++ [(q, v)] := by
  induction l with
  | nil => rfl
  | cons par resto ih =>
    obtain ⟨k, w⟩ := par
    simp only [claves, List.map_cons, List.mem_cons, not_or] at h
    simp only [alSet, if_neg (fun he : k = q => h.1 he.symm), List.cons_append,
      List.cons.injEq, true_and]
    exact ih h.2

theorem claves_alSet_presente (l : List (String × Nat)) (q : String) (v : Nat)
    (h : q ∈ claves l) : claves (alSet l q v) = claves l := by
  induction l with
  | nil => simp [claves] at h
  | cons par resto ih =>
    obtain ⟨k, w⟩ := par
    by_cases hk : k = q
    · subst hk
      simp [alSet, claves]
    · simp only [claves, List.map_cons, List.mem_cons] at h
      rcases h with rfl | hm
      · exact absurd rfl hk
      · simp only [alSet, if_neg hk, claves, List.map_cons, List.cons.injEq, true_and]
        exact ih hm

theorem claves_orden_primera (st : Estado)
    (ho : st.orden = (claves st.primera).zip (List.range' 1 st.primera.length)) :
    claves st.orden = claves st.primera := by
  rw [ho]
  exact List.map_fst_zip _ _ (by simp [claves])

/-- The closing sub-step changes only `ultima`. -/
theorem pasoCierre_salvo_ultima (i : Nat) (st : Estado) (sig : Senal) :
    (pasoCierre i st sig).primera = st.primera ∧
    (pasoCierre i st sig).orden = st.orden ∧
    (pasoCierre i st sig).secuencia = st.secuencia ∧
    (pasoCierre i st sig).current = st.current := by
  unfold pasoCierre
  rcases st with ⟨p, u, o, sec, cur⟩
  cases cur with
  | none => exact ⟨rfl, rfl, rfl, rfl⟩
  | some cid =>
    simp only
    split <;> exact ⟨rfl, rfl, rfl, rfl⟩

/-- The close-previous sub-step changes only `ultima`. -/
theorem cierraPrev_salvo_ultima (i : Nat) (st1 : Estado) (cid : String) :
    (cierraPrev i st1 cid).primera = st1.primera ∧
    (cierraPrev i st1 cid).orden = st1.orden ∧
    (cierraPrev i st1 cid).secuencia = st1.secuencia ∧
    (cierraPrev i st1 cid).current = st1.current := by
  unfold cierraPrev
  split <;> exact ⟨rfl, rfl, rfl, rfl⟩

/-! ## Claim C3: discovery order and first pages -/

/-- `aparicionesPrimeras` only depends on the membership of `vistos`. -/
theorem apariciones_congr (sigs : List Senal) :
    ∀ (i : Nat) (v1 v2 : List String), (∀ x, x ∈ v1 ↔ x ∈ v2) →
      aparicionesPrimeras i v1 sigs = aparicionesPrimeras i v2 sigs := by
  induction sigs with
  | nil => intro i v1 v2 _; rfl
  | cons sig resto ih =>
    intro i v1 v2 hv
    obtain ⟨fo, cl⟩ := sig
    cases fo with
    | none => simp only [aparicionesPrimeras]; exact ih (i + 1) v1 v2 hv
    | some f =>
      by_cases hnuevo : f ≠ "" ∧ f ∉ v1
      · have hnuevo2 : f ≠ "" ∧ f ∉ v2 := ⟨hnuevo.1, fun hm => hnuevo.2 ((hv f).mpr hm)⟩
        simp only [aparicionesPrimeras, if_pos hnuevo, if_pos hnuevo2]
        rw [ih (i + 1) (f :: v1) (f :: v2) (by intro x; simp [hv x])]
      · have hnuevo2 : ¬ (f ≠ "" ∧ f ∉ v2) := by
          intro hx
          exact hnuevo ⟨hx.1, fun hm => hx.2 ((hv f).mp hm)⟩
        simp only [aparicionesPrimeras, if_neg hnuevo, if_neg hnuevo2]
        exact ih (i + 1) v1 v2 hv

/-- One step of the machine: `primera` is extended exactly by the new
first appearance of the page (when there is one), and the
`orden`-versus-`primera` invariants are preserved. -/
theorem paso_analisis (i : Nat) (st : Estado) (sig : Senal)
    (ho : st.orden = (claves st.primera).zip (List.range' 1 st.primera.length))
    (hs : st.secuencia = st.primera.length)
    (hc : ∀ c, st.current = some c → c ∈ claves st.primera)
    (hn : st.current = none → st.primera = []) :
    (paso i st sig).primera
        = st.primera ++ aparicionesPrimeras i (claves st.primera) [sig] ∧
    (paso i st sig).orden = (claves (paso i st sig).primera).zip
        (List.range' 1 (paso i st sig).primera.length) ∧
    (paso i st sig).secuencia = (paso i st sig).primera.length ∧
    (∀ c, (paso i st sig).current = some c → c ∈ claves (paso i st sig).primera) ∧
    ((paso i st sig).current = none → (paso i st sig).primera = []) := by
  obtain ⟨fo, cl⟩ := sig
  obtain ⟨hp1, hp2, hp3, hp4⟩ := pasoCierre_salvo_ultima i st (fo, cl)
  cases fo with
  | none =>
    have hpaso : paso i st (none, cl) = pasoCierre i st (none, cl) := rfl
    rw [hpaso, hp1, hp2, hp3, hp4]
    exact ⟨by simp [aparicionesPrimeras], ho, hs, hc, hn⟩
  | some f =>
    by_cases hf : f = ""
    · have hpaso : paso i st (some f, cl) = pasoCierre i st (some f, cl) := by
        unfold paso
        dsimp only
        rw [if_pos hf]
      rw [hpaso, hp1, hp2, hp3, hp4]
      refine ⟨?_, ho, hs, hc, hn⟩
      simp [aparicionesPrimeras, hf]
    · cases hcur : st.current with
      | none =>
        have hpr : st.primera = [] := hn hcur
        have hpaso : paso i st (some f, cl)
            = { pasoCierre i st (some f, cl) with
                current := some f
                secuencia := (pasoCierre i st (some f, cl)).secuencia + 1
                orden := alSet (pasoCierre i st (some f, cl)).orden f
                  ((pasoCierre i st (some f, cl)).secuencia + 1)
                primera := alSet (pasoCierre i st (some f, cl)).primera f i } := by
          unfold paso
          dsimp only
          rw [if_neg hf, hp4, hcur]
        rw [hpaso]
        dsimp only
        rw [hp1, hp2, hp3, hpr, hs, ho, hpr]
        refine ⟨?_, ?_, ?_, ?_, ?_⟩
        · simp [alSet, aparicionesPrimeras, claves, hf]
        · simp [alSet, claves, List.range']
        · simp [alSet]
        · intro c hcc
          simp only [Option.some.injEq] at hcc
          subst hcc
          simp [alSet, claves]
        · intro hcc
          cases hcc
      | some cid =>
        have hcid : cid ∈ claves st.primera := hc cid hcur
        by_cases hfc : f = cid
        · have hpaso : paso i st (some f, cl) = pasoCierre i st (some f, cl) := by
            unfold paso
            dsimp only
            rw [if_neg hf, hp4, hcur]
            dsimp only
            rw [if_pos hfc]
          rw [hpaso, hp1, hp2, hp3, hp4]
          refine ⟨?_, ho, hs, hc, hn⟩
          have hv : f ∈ claves st.primera := by rw [hfc]; exact hcid
          simp [aparicionesPrimeras, hv]
        · -- identifier change
          have hco : claves st.orden = claves st.primera := claves_orden_primera st ho
          have hpaso : paso i st (some f, cl)
              = tomaNuevo i (cierraPrev i (pasoCierre i st (some f, cl)) cid) f := by
            unfold paso
            dsimp only
            rw [if_neg hf, hp4, hcur]
            dsimp only
            rw [if_neg hfc]
          obtain ⟨hq1, hq2, hq3, hq4⟩ :=
            cierraPrev_salvo_ultima i (pasoCierre i st (some f, cl)) cid
          by_cases horden : alTiene st.orden f
          · -- reappearance of an earlier identifier
            have hfv : f ∈ claves st.primera := hco ▸ (alTiene_mem _ _).mp horden
            have hres : paso i st (some f, cl)
                = { primera := st.primera,
                    ultima := (cierraPrev i (pasoCierre i st (some f, cl)) cid).ultima,
                    orden := st.orden,
                    secuencia := st.secuencia, current := some f } := by
              rw [hpaso]
              unfold tomaNuevo
              rw [hq2, hp2, if_pos horden]
              try dsimp only
              simp only [hq1, hp1, hq2, hp2, hq3, hp3]
            rw [hres]
            refine ⟨by simp [aparicionesPrimeras, hfv], ho, hs, ?_, by intro hcc; cases hcc⟩
            intro c hcc
            simp only [Option.some.injEq] at hcc
            subst hcc
            exact hfv
          · -- genuinely new identifier
            have hfv : f ∉ claves st.primera := fun hm =>
              horden ((alTiene_mem _ _).mpr (hco ▸ hm))
            have hres : paso i st (some f, cl)
                = { primera := alSet st.primera f i,
                    ultima := (cierraPrev i (pasoCierre i st (some f, cl)) cid).ultima,
                    orden := alSet st.orden f (st.secuencia + 1),
                    secuencia := st.secuencia + 1, current := some f } := by
              rw [hpaso]
              unfold tomaNuevo
              rw [hq2, hp2, if_neg horden]
              try dsimp only
              simp only [hq1, hp1, hq2, hp2, hq3, hp3]
            rw [hres]
            have hprim : alSet st.primera f i = st.primera ++ [(f, i)] :=
              alSet_ausente st.primera f i hfv
            have hord : alSet st.orden f (st.secuencia + 1)
                = st.orden ++ [(f, st.secuencia + 1)] :=
              alSet_ausente st.orden f (st.secuencia + 1)
                (fun hm => horden ((alTiene_mem _ _).mpr hm))
            have hlon : (claves st.primera).length = st.primera.length := by
              simp [claves]
            refine ⟨?_, ?_, ?_, ?_, ?_⟩
            · dsimp only
              rw [hprim]
              simp [aparicionesPrimeras, hf, hfv]
            · dsimp only
              rw [hprim, hord, ho, hs]
              rw [show claves (st.primera ++ [(f, i)]) = claves st.primera ++ [f] by
                    simp [claves]]
              rw [show (st.primera ++ [(f, i)]).length = st.primera.length + 1 by simp]
              rw [List.range'_concat 1 st.primera.length]
              rw [List.zip_append (by simp [hlon])]
              simp
              omega
            · dsimp only
              rw [hprim, hs]
              simp
            · dsimp only
              intro c hcc
              simp only [Option.some.injEq] at hcc
              subst hcc
              rw [hprim]
              simp [claves]
            · intro hcc
              cases hcc

/-- Splitting off the head of a first-appearance scan. -/
theorem apariciones_descompone (sig : Senal) (resto : List Senal) (i : Nat)
    (v : List String) :
    aparicionesPrimeras i v (sig :: resto)
      = aparicionesPrimeras i v [sig]
          ++ aparicionesPrimeras (i + 1)
              (v ++ claves (aparicionesPrimeras i v [sig])) resto := by
  obtain ⟨fo, cl⟩ := sig
  cases fo with
  | none => simp [aparicionesPrimeras, claves]
  | some f =>
    by_cases hnew : f ≠ "" ∧ f ∉ v
    · simp only [aparicionesPrimeras, if_pos hnew, claves, List.map_cons, List.map_nil]
      rw [apariciones_congr resto (i + 1) (f :: v) (v ++ [f]) (by intro x; simp [or_comm])]
      simp
    · simp [aparicionesPrimeras, if_neg hnew, claves]

/-- The whole scan: `primera` collects exactly the first appearances, and
the `orden` map is the first-appearance keys paired with `1, 2, 3, …`. -/
theorem bucle_caracteriza (sigs : List Senal) :
    ∀ (i : Nat) (st : Estado),
      st.orden = (claves st.primera).zip (List.range' 1 st.primera.length) →
      st.secuencia = st.primera.length →
      (∀ c, st.current = some c → c ∈ claves st.primera) →
      (st.current = none → st.primera = []) →
      (bucle i st sigs).primera
          = st.primera ++ aparicionesPrimeras i (claves st.primera) sigs ∧
      (bucle i st sigs).orden = (claves (bucle i st sigs).primera).zip
          (List.range' 1 (bucle i st sigs).primera.length) ∧
      (bucle i st sigs).secuencia = (bucle i st sigs).primera.length := by
  induction sigs with
  | nil =>
    intro i st ho hs hc hn
    exact ⟨by simp [bucle, aparicionesPrimeras], ho, hs⟩
  | cons sig resto ih =>
    intro i st ho hs hc hn
    obtain ⟨hA, hB, hC, hD, hE⟩ := paso_analisis i st sig ho hs hc hn
    have hb : bucle i st (sig :: resto) = bucle (i + 1) (paso i st sig) resto := rfl
    obtain ⟨ih1, ih2, ih3⟩ := ih (i + 1) (paso i st sig) hB hC hD hE
    rw [hb]
    refine ⟨?_, ih2, ih3⟩
    rw [ih1, hA, List.append_assoc]
    congr 1
    rw [apariciones_descompone sig resto i (claves st.primera)]
    congr 1
    simp [claves]

/-- Finalisation touches only `ultima`. -/
theorem finaliza_primera (n : Nat) (st : Estado) :
    (finaliza n st).primera = st.primera := by
  unfold finaliza; split <;> rfl

theorem finaliza_orden (n : Nat) (st : Estado) :
    (finaliza n st).orden = st.orden := by
  unfold finaliza; split <;> rfl

theorem finaliza_secuencia (n : Nat) (st : Estado) :
    (finaliza n st).secuencia = st.secuencia := by
  unfold finaliza; split <;> rfl

theorem finaliza_current (n : Nat) (st : Estado) :
    (finaliza n st).current = st.current := by
  unfold finaliza; split <;> rfl

/-- C3: after the scan, `primera_pagina` is exactly the map sending each
distinct (truthy) identifier, in order of first appearance, to the page
index of that first appearance, and `orden_aparicion` pairs those same
identifiers, in the same order, with `1, 2, 3, …` — so discovery order is
strictly increasing from 1, one value per distinct identifier, and a
reappearance never changes an identifier's `discoveryOrder` or
`firstPage`. -/
theorem C3_orden_descubrimiento (sigs : List Senal) :
    (estadoFinal sigs).primera = aparicionesPrimeras 0 [] sigs ∧
    (estadoFinal sigs).orden
      = (claves (aparicionesPrimeras 0 [] sigs)).zip
          (List.range' 1 (aparicionesPrimeras 0 [] sigs).length) := by
  obtain ⟨h1, h2, h3⟩ := bucle_caracteriza sigs 0 inicial rfl rfl
    (by intro c hc; cases hc) (fun _ => rfl)
  unfold estadoFinal
  rw [finaliza_primera, finaliza_orden]
  have hp : (bucle 0 inicial sigs).primera = aparicionesPrimeras 0 [] sigs := by
    simpa [inicial, claves] using h1
  refine ⟨hp, ?_⟩
  rw [h2, hp]

/-! ## Claim C10: resolved ranges and export count -/

theorem alGet_mem_claves (l : List (String × Nat)) (q : String) (v : Nat)
    (h : alGet l q = some v) : q ∈ claves l := by
  induction l with
  | nil => cases h
  | cons par resto ih =>
    obtain ⟨k, w⟩ := par
    by_cases hk : k = q
    · subst hk; simp [claves]
    · simp only [alGet, if_neg hk] at h
      simp only [claves, List.map_cons, List.mem_cons]
      exact Or.inr (ih h)

theorem claves_alGet (l : List (String × Nat)) (q : String)
    (h : q ∈ claves l) : ∃ v, alGet l q = some v := by
  induction l with
  | nil => simp [claves] at h
  | cons par resto ih =>
    obtain ⟨k, w⟩ := par
    by_cases hk : k = q
    · subst hk; exact ⟨w, by simp [alGet]⟩
    · simp only [claves, List.map_cons, List.mem_cons] at h
      rcases h with rfl | hm
      · exact absurd rfl hk
      · simpa [alGet, if_neg hk] using ih hm

theorem claves_alSet_sub (l : List (String × Nat)) (q x : String) (v : Nat)
    (h : x ∈ claves l) : x ∈ claves (alSet l q v) := by
  by_cases hq : q ∈ claves l
  · rw [claves_alSet_presente l q v hq]; exact h
  · rw [alSet_ausente l q v hq]
    simp only [claves, List.map_append, List.mem_append]
    exact Or.inl h

theorem claves_alSet_casos (l : List (String × Nat)) (q x : String) (v : Nat)
    (h : x ∈ claves (alSet l q v)) : x ∈ claves l ∨ x = q := by
  by_cases hq : q ∈ claves l
  · rw [claves_alSet_presente l q v hq] at h; exact Or.inl h
  · rw [alSet_ausente l q v hq] at h
    simp only [claves, List.map_append, List.mem_append] at h
    rcases h with hm | hm
    · exact Or.inl hm
    · simp at hm
      exact Or.inr hm

theorem nodup_alSet (l : List (String × Nat)) (q : String) (v : Nat)
    (h : (claves l).Nodup) : (claves (alSet l q v)).Nodup := by
  by_cases hq : q ∈ claves l
  · rw [claves_alSet_presente l q v hq]; exact h
  · rw [alSet_ausente l q v hq]
    have hig : claves (l ++ [(q, v)]) = claves l ++ [q] := by simp [claves]
    rw [hig, List.nodup_append]
    refine ⟨h, List.nodup_singleton q, ?_⟩
    intro a ha hb
    simp only [List.mem_singleton] at hb
    subst hb
    exact hq ha

/-- The range invariant is monotone in the page counter. -/
theorem invRango_mono (i : Nat) (st : Estado) (h : InvRango i st) :
    InvRango (i + 1) st := by
  obtain ⟨h1, h2, h3, h4, h5, h6, h7, h8, h9⟩ := h
  refine ⟨h1, h2, h3, h4, h5, ?_, h7, ?_, h9⟩
  · intro q p hp
    exact Nat.lt_succ_of_lt (h6 q p hp)
  · intro q l hl
    obtain ⟨he, hb⟩ := h8 q l hl
    exact ⟨he, Nat.lt_succ_of_lt hb⟩

/-- The closing-marker sub-step preserves the range invariant (with the
counter advanced: the new last page is the current page `i`). -/
theorem pasoCierre_rango (i : Nat) (st : Estado) (sig : Senal)
    (h : InvRango i st) : InvRango (i + 1) (pasoCierre i st sig) := by
  obtain ⟨h1, h2, h3, h4, h5, h6, h7, h8, h9⟩ := h
  unfold pasoCierre
  cases hcu : st.current with
  | none => exact invRango_mono i st ⟨h1, h2, h3, h4, h5, h6, h7, h8, h9⟩
  | some cid =>
    dsimp only
    by_cases hg : cid ≠ "" ∧ sig.2 = true
    · rw [if_pos hg]
      have hcid : cid ∈ claves st.orden ∧ cid ≠ "" := h5 cid hcu
      refine ⟨h1, nodup_alSet _ _ _ h2, ?_, ?_, ?_, ?_, h7, ?_, ?_⟩
      · intro x hx
        rcases claves_alSet_casos _ _ _ _ hx with hm | rfl
        · exact h3 x hm
        · exact hcid.1
      · intro x hx
        rcases h4 x hx with hm | hm
        · exact Or.inl (claves_alSet_sub _ _ _ _ hm)
        · rw [hcu] at hm
          injection hm with hm
          subst hm
          exact Or.inl (alGet_mem_claves _ _ _ (alGet_alSet_self st.ultima cid i))
      · intro c hc
        injection hc with hc
        subst hc
        exact hcid
      · intro q p hp
        exact Nat.lt_succ_of_lt (h6 q p hp)
      · intro q l hl
        by_cases hq : q = cid
        · subst hq
          rw [alGet_alSet_self] at hl
          injection hl with hl
          subst hl
          obtain ⟨p, hp⟩ := h7 q (h5 q hcu).1
          exact ⟨⟨p, hp, Nat.le_of_lt_succ (Nat.lt_succ_of_lt (h6 q p hp))⟩,
            Nat.lt_succ_self i⟩
        · rw [alGet_alSet_ne _ _ _ _ hq] at hl
          obtain ⟨he, hb⟩ := h8 q l hl
          exact ⟨he, Nat.lt_succ_of_lt hb⟩
      · intro hc
        cases hc
    · rw [if_neg hg]
      exact invRango_mono i st ⟨h1, h2, h3, h4, h5, h6, h7, h8, h9⟩


/-- Closing the previous invoice preserves the invariant and guarantees
the previous identifier has a recorded last page afterwards. -/
theorem cierraPrev_rango (i : Nat) (st1 : Estado) (cid : String)
    (hinv : InvRango (i + 1) st1) (hcur1 : st1.current = some cid) :
    InvRango (i + 1) (cierraPrev i st1 cid) ∧
    cid ∈ claves (cierraPrev i st1 cid).ultima := by
  obtain ⟨g1, g2, g3, g4, g5, g6, g7, g8, g9⟩ := hinv
  unfold cierraPrev
  by_cases hu : alTiene st1.ultima cid
  · rw [if_pos hu]
    exact ⟨⟨g1, g2, g3, g4, g5, g6, g7, g8, g9⟩, (alTiene_mem _ _).mp hu⟩
  · rw [if_neg hu]
    obtain ⟨p, hp⟩ := g7 cid (g5 cid hcur1).1
    have hgetd : alGetD st1.primera cid (i - 1) = p := by simp [alGetD, hp]
    have hpi : p < i + 1 := g6 cid p hp
    refine ⟨⟨g1, nodup_alSet _ _ _ g2, ?_, ?_, g5, g6, g7, ?_, ?_⟩, ?_⟩
    · intro x hx
      rcases claves_alSet_casos _ _ _ _ hx with hm | rfl
      · exact g3 x hm
      · exact (g5 x hcur1).1
    · intro x hx
      rcases g4 x hx with hm | hm
      · exact Or.inl (claves_alSet_sub _ _ _ _ hm)
      · rw [hcur1] at hm
        injection hm with hm
        subst hm
        exact Or.inl (alGet_mem_claves _ _ _ (alGet_alSet_self _ cid _))
    · intro q l hl
      by_cases hq : q = cid
      · subst hq
        rw [alGet_alSet_self] at hl
        injection hl with hl
        subst hl
        rw [hgetd]
        refine ⟨⟨p, hp, le_max_right _ _⟩, ?_⟩
        omega
      · rw [alGet_alSet_ne _ _ _ _ hq] at hl
        exact g8 q l hl
    · intro hc
      rw [hc] at hcur1
      cases hcur1
    · exact alGet_mem_claves _ _ _ (alGet_alSet_self _ cid _)

/-- Making the found identifier current preserves the invariant, given
the previous identifier has been closed. -/
theorem tomaNuevo_rango (i : Nat) (st2 : Estado) (f cid : String)
    (hinv : InvRango (i + 1) st2) (hcur2 : st2.current = some cid)
    (hcerr : cid ∈ claves st2.ultima) (hf : f ≠ "") :
    InvRango (i + 1) (tomaNuevo i st2 f) := by
  obtain ⟨g1, g2, g3, g4, g5, g6, g7, g8, g9⟩ := hinv
  have hcierra : ∀ x ∈ claves st2.orden, x ∈ claves st2.ultima := by
    intro x hx
    rcases g4 x hx with hm | hm
    · exact hm
    · rw [hcur2] at hm
      injection hm with hm
      subst hm
      exact hcerr
  unfold tomaNuevo
  by_cases horden : alTiene st2.orden f
  · rw [if_pos horden]
    refine ⟨g1, g2, g3, ?_, ?_, g6, g7, g8, ?_⟩
    · intro x hx
      exact Or.inl (hcierra x hx)
    · intro c hc
      injection hc with hc
      subst hc
      exact ⟨(alTiene_mem _ _).mp horden, hf⟩
    · intro hc
      cases hc
  · rw [if_neg horden]
    have hfo : f ∉ claves st2.orden := fun hm => horden ((alTiene_mem _ _).mpr hm)
    have hfu : f ∉ claves st2.ultima := fun hm => hfo (g3 f hm)
    refine ⟨nodup_alSet _ _ _ g1, g2, ?_, ?_, ?_, ?_, ?_, ?_, ?_⟩
    · intro x hx
      exact claves_alSet_sub _ _ _ _ (g3 x hx)
    · intro x hx
      rcases claves_alSet_casos _ _ _ _ hx with hm | rfl
      · exact Or.inl (hcierra x hm)
      · exact Or.inr rfl
    · intro c hc
      injection hc with hc
      subst hc
      exact ⟨alGet_mem_claves _ _ _ (alGet_alSet_self _ f _), hf⟩
    · intro q p hp
      by_cases hq : q = f
      · subst hq
        rw [alGet_alSet_self] at hp
        injection hp with hp
        omega
      · rw [alGet_alSet_ne _ _ _ _ hq] at hp
        exact g6 q p hp
    · intro q hq
      rcases claves_alSet_casos _ _ _ _ hq with hm | rfl
      · obtain ⟨p, hp⟩ := g7 q hm
        have hqf : q ≠ f := fun he => hfo (he ▸ hm)
        exact ⟨p, by rw [alGet_alSet_ne _ _ _ _ hqf]; exact hp⟩
      · exact ⟨i, alGet_alSet_self _ _ _⟩
    · intro q l hl
      obtain ⟨⟨p, hp, hpl⟩, hli⟩ := g8 q l hl
      have hqf : q ≠ f := fun he => hfu (he ▸ alGet_mem_claves _ _ _ hl)
      exact ⟨⟨p, by rw [alGet_alSet_ne _ _ _ _ hqf]; exact hp, hpl⟩, hli⟩
    · intro hc
      cases hc

/-- One full page step preserves the range invariant. -/
theorem paso_rango (i : Nat) (st : Estado) (sig : Senal) (h : InvRango i st) :
    InvRango (i + 1) (paso i st sig) := by
  obtain ⟨fo, cl⟩ := sig
  have h1 : InvRango (i + 1) (pasoCierre i st (fo, cl)) := pasoCierre_rango i st (fo, cl) h
  obtain ⟨hp1, hp2, hp3, hp4⟩ := pasoCierre_salvo_ultima i st (fo, cl)
  cases fo with
  | none => exact h1
  | some f =>
    by_cases hf : f = ""
    · have hpaso : paso i st (some f, cl) = pasoCierre i st (some f, cl) := by
        unfold paso
        dsimp only
        rw [if_pos hf]
      rw [hpaso]
      exact h1
    · cases hcur : st.current with
      | none =>
        obtain ⟨g1, g2, g3, g4, g5, g6, g7, g8, g9⟩ := h
        obtain ⟨hpr, hul, hor⟩ := g9 hcur
        have hc1 : pasoCierre i st (some f, cl) = st := by
          unfold pasoCierre
          rw [hcur]
        have hpaso : paso i st (some f, cl)
            = { primera := alSet st.primera f i, ultima := st.ultima,
                orden := alSet st.orden f (st.secuencia + 1),
                secuencia := st.secuencia + 1, current := some f } := by
          unfold paso
          dsimp only
          rw [if_neg hf, hp4, hcur]
          try dsimp only
          rw [hc1]
        rw [hpaso, hpr, hul, hor]
        refine ⟨?_, ?_, ?_, ?_, ?_, ?_, ?_, ?_, ?_⟩
        · simp [alSet, claves]
        · simp [claves]
        · intro x hx
          simp [claves] at hx
        · intro x hx
          simp only [alSet, claves, List.map_cons, List.map_nil, List.mem_cons,
            List.not_mem_nil, or_false] at hx
          subst hx
          exact Or.inr rfl
        · intro c hc
          injection hc with hc
          subst hc
          exact ⟨by simp [alSet, claves], hf⟩
        · intro q p hp
          simp only [alSet, alGet] at hp
          split at hp
          · injection hp with hp
            omega
          · cases hp
        · intro q hq
          simp only [alSet, claves, List.map_cons, List.map_nil, List.mem_cons,
            List.not_mem_nil, or_false] at hq
          subst hq
          exact ⟨i, by simp [alGet]⟩
        · intro q l hl
          simp [alGet] at hl
        · intro hc
          cases hc
      | some cid =>
        by_cases hfc : f = cid
        · have hpaso : paso i st (some f, cl) = pasoCierre i st (some f, cl) := by
            unfold paso
            dsimp only
            rw [if_neg hf, hp4, hcur]
            dsimp only
            rw [if_pos hfc]
          rw [hpaso]
          exact h1
        · have hcur1 : (pasoCierre i st (some f, cl)).current = some cid := by
            rw [hp4, hcur]
          obtain ⟨hinv2, hcerr2⟩ :=
            cierraPrev_rango i (pasoCierre i st (some f, cl)) cid h1 hcur1
          have hcur2 : (cierraPrev i (pasoCierre i st (some f, cl)) cid).current
              = some cid := by
            rw [(cierraPrev_salvo_ultima i (pasoCierre i st (some f, cl)) cid).2.2.2]
            exact hcur1
          have hpaso : paso i st (some f, cl)
              = tomaNuevo i (cierraPrev i (pasoCierre i st (some f, cl)) cid) f := by
            unfold paso
            dsimp only
            rw [if_neg hf, hp4, hcur]
            dsimp only
            rw [if_neg hfc]
          rw [hpaso]
          exact tomaNuevo_rango i _ f cid hinv2 hcur2 hcerr2 hf

/-- The whole scan preserves the range invariant. -/
theorem bucle_rango (sigs : List Senal) :
    ∀ (i : Nat) (st : Estado), InvRango i st →
      InvRango (i + sigs.length) (bucle i st sigs) := by
  induction sigs with
  | nil => intro i st h; simpa [bucle] using h
  | cons sig resto ih =>
    intro i st h
    have h2 := ih (i + 1) (paso i st sig) (paso_rango i st sig h)
    have hn : i + (sig :: resto).length = i + 1 + resto.length := by
      simp
      omega
    rw [hn]
    exact h2

/-- End-of-document finalisation: afterwards every identifier known to
`orden_aparicion` has a last page, at or after its first page and before
`n`. -/
theorem finaliza_rango (n : Nat) (st : Estado) (h : InvRango n st) :
    (claves (finaliza n st).ultima).Nodup ∧
    (∀ x ∈ claves (finaliza n st).ultima, x ∈ claves st.orden) ∧
    (∀ q ∈ claves st.orden,
      ∃ f l, alGet st.primera q = some f ∧
        alGet (finaliza n st).ultima q = some l ∧ f ≤ l ∧ l < n) := by
  obtain ⟨g1, g2, g3, g4, g5, g6, g7, g8, g9⟩ := h
  unfold finaliza
  cases hcu : st.current with
  | none =>
    rw [if_neg (by simp [esVerdadero])]
    refine ⟨g2, g3, ?_⟩
    intro q hq
    rw [(g9 hcu).2.2] at hq
    simp [claves] at hq
  | some c =>
    have hcne : c ≠ "" := (g5 c hcu).2
    by_cases hT : alTiene st.ultima c
    · rw [if_neg (by simp [esVerdadero, hT, hcne])]
      refine ⟨g2, g3, ?_⟩
      intro q hq
      have hqu : q ∈ claves st.ultima := by
        rcases g4 q hq with hm | hm
        · exact hm
        · rw [hcu] at hm
          injection hm with hm
          subst hm
          exact (alTiene_mem _ _).mp hT
      obtain ⟨l, hl⟩ := claves_alGet st.ultima q hqu
      obtain ⟨⟨p, hp, hpl⟩, hln⟩ := g8 q l hl
      exact ⟨p, l, hp, hl, hpl, hln⟩
    · rw [if_pos (by simp [esVerdadero, hT, hcne])]
      dsimp only
      simp only [Option.getD_some]
      have hcnu : c ∉ claves st.ultima := fun hm => hT ((alTiene_mem _ _).mpr hm)
      refine ⟨nodup_alSet _ _ _ g2, ?_, ?_⟩
      · intro x hx
        rcases claves_alSet_casos _ _ _ _ hx with hm | rfl
        · exact g3 x hm
        · exact (g5 x hcu).1
      · intro q hq
        rcases g4 q hq with hm | hm
        · obtain ⟨l, hl⟩ := claves_alGet st.ultima q hm
          obtain ⟨⟨p, hp, hpl⟩, hln⟩ := g8 q l hl
          have hqc : q ≠ c := fun he => hcnu (he ▸ hm)
          exact ⟨p, l, hp, by rw [alGet_alSet_ne _ _ _ _ hqc]; exact hl, hpl, hln⟩
        · rw [hcu] at hm
          injection hm with hm
          subst hm
          obtain ⟨p, hp⟩ := g7 c (g5 c hcu).1
          have hpn : p < n := g6 c p hp
          exact ⟨p, n - 1, hp, alGet_alSet_self _ _ _, by omega, by omega⟩

/-- Stable insertion adds one element. -/
theorem insertaPorClave_length (f : String × Nat → Nat) (x : String × Nat) :
    ∀ l : List (String × Nat), (insertaPorClave f x l).length = l.length + 1 := by
  intro l
  induction l with
  | nil => rfl
  | cons y resto ih =>
    unfold insertaPorClave
    split
    · simp [ih]
    · simp

/-- Sorting preserves length. -/
theorem ordenaPorClave_length (f : String × Nat → Nat) :
    ∀ l : List (String × Nat), (ordenaPorClave f l).length = l.length := by
  intro l
  induction l with
  | nil => rfl
  | cons x resto ih =>
    unfold ordenaPorClave
    rw [insertaPorClave_length, ih]
    rfl

/-- The export loop writes exactly one file per pair. -/
theorem exporta_length (dst base : String) (existentes : List String)
    (ordenes : List (String × Nat)) :
    ∀ (pares : List (String × Nat)) (usados : List String),
      (exporta dst base existentes ordenes pares usados).length = pares.length := by
  intro pares
  induction pares with
  | nil => intro usados; rfl
  | cons par resto ih =>
    intro usados
    obtain ⟨fid, idx⟩ := par
    unfold exporta
    simp [ih]

/-- Two duplicate-free lists with the same members have the same length. -/
theorem nodup_mismo_largo (a b : List String) (ha : a.Nodup) (hb : b.Nodup)
    (hab : ∀ x ∈ a, x ∈ b) (hba : ∀ x ∈ b, x ∈ a) : a.length = b.length := by
  have hf : a.toFinset = b.toFinset := by
    apply Finset.ext
    intro x
    simp only [List.mem_toFinset]
    exact ⟨hab x, hba x⟩
  calc a.length = a.toFinset.card := (List.toFinset_card_of_nodup ha).symm
    _ = b.toFinset.card := by rw [hf]
    _ = b.length := List.toFinset_card_of_nodup hb

/-- C10: after a full scan of an `n`-page document, every identifier with
a discovery order has a resolved range `firstPage ≤ lastPage ≤ n - 1`,
and the exporter writes exactly one document per distinct identifier, so
the export count equals the number of distinct identifiers detected. -/
theorem C10_rangos_y_cuenta (dst base : String) (existentes : List String)
    (sigs : List Senal) :
    (∀ q ∈ claves (estadoFinal sigs).orden,
        ∃ f l, alGet (estadoFinal sigs).primera q = some f ∧
          alGet (estadoFinal sigs).ultima q = some l ∧
          f ≤ l ∧ l ≤ sigs.length - 1) ∧
    (rutasExportadas dst base existentes sigs).length
      = (aparicionesPrimeras 0 [] sigs).length := by
  have hinv0 : InvRango 0 inicial := by
    refine ⟨by simp [inicial, claves], by simp [inicial, claves],
      ?_, ?_, ?_, ?_, ?_, ?_, ?_⟩
    · intro x hx
      simp [inicial, claves] at hx
    · intro x hx
      simp [inicial, claves] at hx
    · intro c hc
      cases hc
    · intro q p hp
      cases hp
    · intro q hq
      simp [inicial, claves] at hq
    · intro q l hl
      cases hl
    · intro hc
      exact ⟨rfl, rfl, rfl⟩
  have hbu := bucle_rango sigs 0 inicial hinv0
  rw [Nat.zero_add] at hbu
  obtain ⟨hnodupU, hsubU, hrangos⟩ :=
    finaliza_rango sigs.length (bucle 0 inicial sigs) hbu
  obtain ⟨b1, b2, b3, b4, b5, b6, b7, b8, b9⟩ := hbu
  have hEF : estadoFinal sigs = finaliza sigs.length (bucle 0 inicial sigs) := rfl
  constructor
  · intro q hq
    rw [hEF, finaliza_orden] at hq
    obtain ⟨f, l, hf, hl, hfl, hln⟩ := hrangos q hq
    refine ⟨f, l, ?_, ?_, hfl, by omega⟩
    · rw [hEF, finaliza_primera]
      exact hf
    · rw [hEF]
      exact hl
  · obtain ⟨hc1, hc2, hc3⟩ := bucle_caracteriza sigs 0 inicial rfl rfl
      (by intro c hc; cases hc) (fun _ => rfl)
    have hp : (bucle 0 inicial sigs).primera = aparicionesPrimeras 0 [] sigs := by
      simpa [inicial, claves] using hc1
    have hlenOrden : (bucle 0 inicial sigs).orden.length
        = (aparicionesPrimeras 0 [] sigs).length := by
      rw [hc2, hp]
      simp [claves]
    have hbsub : ∀ x ∈ claves (bucle 0 inicial sigs).orden,
        x ∈ claves (finaliza sigs.length (bucle 0 inicial sigs)).ultima := by
      intro x hx
      obtain ⟨f, l, hf, hl, -, -⟩ := hrangos x hx
      exact alGet_mem_claves _ _ _ hl
    have hUlen : (finaliza sigs.length (bucle 0 inicial sigs)).ultima.length
        = (bucle 0 inicial sigs).orden.length := by
      have hcl := nodup_mismo_largo
        (claves (finaliza sigs.length (bucle 0 inicial sigs)).ultima)
        (claves (bucle 0 inicial sigs).orden)
        hnodupU b1 hsubU hbsub
      simpa [claves] using hcl
    show (rutasExportadas dst base existentes sigs).length = _
    unfold rutasExportadas
    rw [exporta_length]
    unfold paresDe
    rw [ordenaPorClave_length]
    rw [← hEF] at hUlen
    rw [hUlen, hlenOrden]

/-! ## Claim C6: exported paths never collide -/

theorem digitoChar_mem (k : Nat) : digitoChar k ∈ ("0123456789" : String).data := by
  unfold digitoChar
  rw [List.getD_eq_getD_get?]
  cases hg : ("0123456789" : String).data.get? k with
  | some c =>
    simp only [Option.getD_some]
    exact List.get?_mem hg
  | none =>
    simp only [Option.getD_none]
    decide

theorem valorDigito_digitoChar (k : Nat) (h : k < 10) :
    valorDigito (digitoChar k) = k := by
  interval_cases k <;> decide

theorem valorDe_concat (xs : List Char) (c : Char) :
    valorDe (xs ++ [c]) = 10 * valorDe xs + valorDigito c := by
  unfold valorDe
  rw [List.foldl_append]
  rfl

theorem valorDe_digitos (n : Nat) : valorDe (digitos n) = n := by
  induction n using Nat.strong_induction_on with
  | _ n ih =>
    by_cases h : n < 10
    · unfold digitos
      rw [dif_pos h]
      show valorDe [digitoChar n] = n
      unfold valorDe
      simp only [List.foldl_cons, List.foldl_nil, Nat.mul_zero, Nat.zero_add]
      exact valorDigito_digitoChar n h
    · unfold digitos
      rw [dif_neg h]
      rw [valorDe_concat, ih (n / 10) (Nat.div_lt_self (by omega) (by omega)),
        valorDigito_digitoChar (n % 10) (Nat.mod_lt n (by omega))]
      omega

theorem digitos_inyectiva (a b : Nat) (h : digitos a = digitos b) : a = b := by
  have := congrArg valorDe h
  rwa [valorDe_digitos, valorDe_digitos] at this

theorem digitos_son_digitos (n : Nat) :
    ∀ c ∈ digitos n, c ∈ ("0123456789" : String).data := by
  induction n using Nat.strong_induction_on with
  | _ n ih =>
    by_cases h : n < 10
    · unfold digitos
      rw [dif_pos h]
      intro c hc
      simp only [List.mem_singleton] at hc
      subst hc
      exact digitoChar_mem n
    · unfold digitos
      rw [dif_neg h]
      intro c hc
      rcases List.mem_append.mp hc with hm | hm
      · exact ih (n / 10) (Nat.div_lt_self (by omega) (by omega)) c hm
      · simp only [List.mem_singleton] at hm
        subst hm
        exact digitoChar_mem (n % 10)

theorem bajaChar_digito (c : Char) (h : c ∈ ("0123456789" : String).data) :
    bajaChar c = c := by
  fin_cases h <;> decide

theorem mapa_identidad (f : Char → Char) :
    ∀ l : List Char, (∀ c ∈ l, f c = c) → l.map f = l := by
  intro l
  induction l with
  | nil => intro _; rfl
  | cons c resto ih =>
    intro h
    simp only [List.map_cons]
    rw [h c (by simp), ih (fun d hd => h d (List.mem_cons_of_mem _ hd))]

/-- The lowercased candidate paths of one segment are pairwise distinct
across attempt numbers. -/
theorem rutaCandidata_minus_inyectiva (dst base fidSafe : String) (orden : Nat)
    (k1 k2 : Nat)
    (h : minusculas (rutaCandidata dst base fidSafe orden k1)
      = minusculas (rutaCandidata dst base fidSafe orden k2)) : k1 = k2 := by
  have hdata := congrArg String.data h
  unfold rutaCandidata at hdata
  simp only [minusculas, String.data_append, List.map_append] at hdata
  have hcola := List.append_cancel_left hdata
  have hsuf : ∀ k : Nat,
      ((if k = 0 then (".pdf" : String)
        else "_" ++ String.mk (digitos k) ++ ".pdf") : String).data.map bajaChar
        = if k = 0 then (".pdf" : String).data
          else '_' :: (digitos k ++ (".pdf" : String).data) := by
    intro k
    by_cases hk : k = 0
    · rw [if_pos hk, if_pos hk]
      decide
    · rw [if_neg hk, if_neg hk]
      simp only [String.data_append, List.map_append]
      rw [mapa_identidad bajaChar (digitos k)
        (fun c hc => bajaChar_digito c (digitos_son_digitos k c hc))]
      rw [show List.map bajaChar ['_'] = ['_'] from by decide,
        show List.map bajaChar ['.', 'p', 'd', 'f'] = ['.', 'p', 'd', 'f'] from by decide]
      simp
  rw [hsuf k1, hsuf k2] at hcola
  by_cases h1 : k1 = 0 <;> by_cases h2 : k2 = 0
  · rw [h1, h2]
  · rw [if_pos h1, if_neg h2] at hcola
    have hh := congrArg List.head? hcola
    rw [show ((".pdf" : String).data).head? = some '.' from rfl, List.head?_cons] at hh
    exact absurd (Option.some.inj hh) (by decide)
  · rw [if_neg h1, if_pos h2] at hcola
    have hh := congrArg List.head? hcola
    rw [show ((".pdf" : String).data).head? = some '.' from rfl, List.head?_cons] at hh
    exact absurd (Option.some.inj hh) (by decide)
  · rw [if_neg h1, if_neg h2] at hcola
    have htail := List.cons.inj hcola
    have hdig := List.append_cancel_right htail.2
    exact digitos_inyectiva k1 k2 hdig

/-- Among the first `|usados| + |existentes| + 1` candidate attempts, one
is not blocked. -/
theorem existeCandidataLibre (usados existentes : List String)
    (dst base fidSafe : String) (orden : Nat) :
    ∃ k, k < usados.length + existentes.length + 1 ∧
      rutaBloqueada usados existentes (rutaCandidata dst base fidSafe orden k)
        = false := by
  by_contra hno
  push_neg at hno
  have hbloq : ∀ k, k < usados.length + existentes.length + 1 →
      minusculas (rutaCandidata dst base fidSafe orden k) ∈ usados ∨
        rutaCandidata dst base fidSafe orden k ∈ existentes := by
    intro k hk
    have := hno k hk
    have htrue : rutaBloqueada usados existentes
        (rutaCandidata dst base fidSafe orden k) = true := by
      cases hb : rutaBloqueada usados existentes
          (rutaCandidata dst base fidSafe orden k)
      · exact absurd hb this
      · rfl
    unfold rutaBloqueada at htrue
    exact of_decide_eq_true htrue
  have hmapsto : ∀ k ∈ Finset.range (usados.length + existentes.length + 1),
      (if minusculas (rutaCandidata dst base fidSafe orden k) ∈ usados then
        Sum.inl (minusculas (rutaCandidata dst base fidSafe orden k))
       else Sum.inr (rutaCandidata dst base fidSafe orden k))
        ∈ (usados.map Sum.inl ++ existentes.map (Sum.inr (α := String))).toFinset := by
    intro k hk
    rw [Finset.mem_range] at hk
    rw [List.mem_toFinset, List.mem_append]
    by_cases hu : minusculas (rutaCandidata dst base fidSafe orden k) ∈ usados
    · rw [if_pos hu]
      exact Or.inl (List.mem_map.mpr ⟨_, hu, rfl⟩)
    · rw [if_neg hu]
      rcases hbloq k hk with hm | hm
      · exact absurd hm hu
      · exact Or.inr (List.mem_map.mpr ⟨_, hm, rfl⟩)
  have hcard : ((usados.map Sum.inl
      ++ existentes.map (Sum.inr (α := String))).toFinset).card
      < (Finset.range (usados.length + existentes.length + 1)).card := by
    calc ((usados.map Sum.inl ++ existentes.map (Sum.inr (α := String))).toFinset).card
        ≤ (usados.map Sum.inl ++ existentes.map (Sum.inr (α := String))).length :=
          List.toFinset_card_le _
      _ = usados.length + existentes.length := by simp
      _ < (Finset.range (usados.length + existentes.length + 1)).card := by simp
  obtain ⟨x, hx, y, hy, hxy, hfxy⟩ :=
    Finset.exists_ne_map_eq_of_card_lt_of_maps_to hcard hmapsto
  by_cases hux : minusculas (rutaCandidata dst base fidSafe orden x) ∈ usados <;>
    by_cases huy : minusculas (rutaCandidata dst base fidSafe orden y) ∈ usados
  · rw [if_pos hux, if_pos huy] at hfxy
    injection hfxy with hfxy
    exact hxy (rutaCandidata_minus_inyectiva dst base fidSafe orden x y hfxy)
  · rw [if_pos hux, if_neg huy] at hfxy
    cases hfxy
  · rw [if_neg hux, if_pos huy] at hfxy
    cases hfxy
  · rw [if_neg hux, if_neg huy] at hfxy
    injection hfxy with hfxy
    exact hxy (rutaCandidata_minus_inyectiva dst base fidSafe orden x y
      (congrArg minusculas hfxy))

/-- The chosen output path is never blocked: not previously used (even up
to case) and not an existing file. -/
theorem eligeRuta_libre (usados existentes : List String)
    (dst base fidSafe : String) (orden : Nat) :
    rutaBloqueada usados existentes
      (eligeRuta usados existentes dst base fidSafe orden) = false := by
  unfold eligeRuta
  cases hfind : (List.range (usados.length + existentes.length + 1)).find?
      (fun k => ¬ rutaBloqueada usados existentes
        (rutaCandidata dst base fidSafe orden k) = true) with
  | some k =>
    have hp := List.find?_some hfind
    simp only [decide_eq_true_eq] at hp
    simp only
    cases hb : rutaBloqueada usados existentes (rutaCandidata dst base fidSafe orden k)
    · rfl
    · exact absurd hb hp
  | none =>
    exfalso
    obtain ⟨k, hk, hfree⟩ := existeCandidataLibre usados existentes dst base fidSafe orden
    have := List.find?_eq_none.mp hfind k (List.mem_range.mpr hk)
    simp only [decide_eq_true_eq] at this
    rw [hfree] at this
    exact this (fun h => Bool.noConfusion h)

/-- Every path produced by the export loop avoids the used-set, and the
produced paths are pairwise distinct case-insensitively. -/
theorem exporta_distintas (dst base : String) (existentes : List String)
    (ordenes : List (String × Nat)) :
    ∀ (pares : List (String × Nat)) (usados : List String),
      (∀ r ∈ exporta dst base existentes ordenes pares usados,
        minusculas r ∉ usados) ∧
      List.Pairwise (fun p q => minusculas p ≠ minusculas q)
        (exporta dst base existentes ordenes pares usados) := by
  intro pares
  induction pares with
  | nil =>
    intro usados
    refine ⟨?_, List.Pairwise.nil⟩
    intro r hr
    cases hr
  | cons par resto ih =>
    intro usados
    obtain ⟨fid, idx⟩ := par
    have hfree := eligeRuta_libre usados existentes dst base
      (nombre_seguro fid) (alGetD ordenes fid 0)
    have hnotin : minusculas (eligeRuta usados existentes dst base
        (nombre_seguro fid) (alGetD ordenes fid 0)) ∉ usados := by
      intro hm
      unfold rutaBloqueada at hfree
      rw [decide_eq_false_iff_not] at hfree
      exact hfree (Or.inl hm)
    obtain ⟨ihA, ihB⟩ := ih (minusculas (eligeRuta usados existentes dst base
      (nombre_seguro fid) (alGetD ordenes fid 0)) :: usados)
    constructor
    · intro r hr
      rcases List.mem_cons.mp hr with rfl | hm
      · exact hnotin
      · intro hu
        exact ihA r hm (List.mem_cons_of_mem _ hu)
    · refine List.Pairwise.cons ?_ ihB
      intro r hr
      have := ihA r hr
      intro he
      exact this (he ▸ List.mem_cons_self _ _)

/-- C6: within one export pass the exporter never writes two segments to
the same output path — even for identical computed base filenames the
incrementing numeric suffix yields, for every pair of distinct segments,
two paths that differ case-insensitively; in particular this holds for
the pairs produced by a full document scan. -/
theorem C6_rutas_distintas (dst base : String) (existentes : List String)
    (ordenes pares : List (String × Nat)) (sigs : List Senal) :
    List.Pairwise (fun p q => minusculas p ≠ minusculas q)
      (exporta dst base existentes ordenes pares []) ∧
    List.Pairwise (fun p q => minusculas p ≠ minusculas q)
      (rutasExportadas dst base existentes sigs) :=
  ⟨(exporta_distintas dst base existentes ordenes pares []).2,
   (exporta_distintas dst base existentes (estadoFinal sigs).orden
     (paresDe (estadoFinal sigs)) []).2⟩

/-- C7, witness for the amended theorem at a concrete input. -/
theorem C7_testigo :
    ('A' ∈ (nombre_seguro "A.B").data) ∧ esSegura 'A' = true :=
  ⟨by decide, (C7_nombre_seguro "A.B").2.2 'A' (by decide)⟩

/-- C10, witness at a concrete signal list. -/
theorem C10_testigo :
    ("A" ∈ claves (estadoFinal [(some "A", false)]).orden) ∧
    ∃ f l, alGet (estadoFinal [(some "A", false)]).primera "A" = some f ∧
      alGet (estadoFinal [(some "A", false)]).ultima "A" = some l ∧
      f ≤ l ∧ l ≤ [(some "A", false)].length - 1 :=
  ⟨by decide,
   (C10_rangos_y_cuenta "d" "b" [] [(some "A", false)]).1 "A" (by decide)⟩
